import Mathlib

/-
Verification of the head-metadata reconciliation logic of the
react-client-seo package (src/utils.ts and src/useSeo.ts).

The document head is modelled as a title string together with an ordered
list of elements; each element is a tag name, an ordered attribute list
(DOM setAttribute updates an existing attribute in place, otherwise
appends it), and a text content.  querySelector returns the first element
of the head matching the selector; getElementById returns the first
element whose id attribute equals the given id.  All functions below are
direct translations of the corresponding TypeScript functions.
-/

namespace ClientSeo

/-- Model of a DOM element in the document head: tag name, ordered
attribute list, and text content. -/
structure Elem where
  tag : String
  attrs : List (String × String)
  text : String
deriving DecidableEq, Repr

/-- Model of setAttribute on an attribute list: replace the value of the
first occurrence of the attribute in place, otherwise append the pair. -/
def setPair : List (String × String) → String → String → List (String × String)
  | [], a, v => [(a, v)]
  | (b, w) :: t, a, v => if b = a then (a, v) :: t else (b, w) :: setPair t a v

/-- Value of an attribute: the first binding in the attribute list. -/
def Elem.getAttr (e : Elem) (a : String) : Option String :=
  (e.attrs.find? (fun p => p.1 = a)).map (fun p => p.2)

/-- Model of element.setAttribute. -/
def Elem.setAttr (e : Elem) (a v : String) : Elem :=
  { e with attrs := setPair e.attrs a v }

/-- Model of the document: title plus the ordered children of the head. -/
structure Doc where
  title : String
  elems : List Elem
deriving DecidableEq, Repr

/-- Selector `tag[attr="key"]`: tag matches and the attribute has the
given value. -/
def selPred (tag attr key : String) (e : Elem) : Bool :=
  e.tag == tag && e.getAttr attr == some key

/-- Selector `meta[charset]`: a meta element with a charset attribute. -/
def charsetSel (e : Elem) : Bool :=
  e.tag == "meta" && (e.getAttr "charset").isSome

/-- Selector for getElementById. -/
def byId (id : String) (e : Elem) : Bool :=
  e.getAttr "id" == some id

/-- Remove the first element satisfying the predicate (element.remove()
after a successful querySelector/getElementById). -/
def removeFirstBy (p : Elem → Bool) : List Elem → List Elem
  | [] => []
  | e :: t => if p e then t else e :: removeFirstBy p t

/-- Set an attribute of the element at the given position of the head. -/
def writeAt : List Elem → Nat → String → String → List Elem
  | [], _, _, _ => []
  | e :: t, 0, a, v => e.setAttr a v :: t
  | e :: t, n + 1, a, v => e :: writeAt t n a v

/-- JS truthiness of an optional string: present and non-empty. -/
def isTruthy : Option String → Bool
  | none => false
  | some s => s != ""

/-- JS `a || b` on optional string fields. -/
def jsOr (a b : Option String) : Option String :=
  if isTruthy a then a else b

/-- Source: getOrCreateMetaTag(attribute, value).  Returns the position
of the (found or freshly appended) meta element together with the
possibly extended document. -/
def getOrCreateMetaTag (attrKind value : String) (d : Doc) : Nat × Doc :=
  match d.elems.findIdx? (selPred "meta" attrKind value) with
  | some i => (i, d)
  | none =>
    (d.elems.length,
     { d with elems := d.elems ++ [Elem.mk "meta" [(attrKind, value)] ""] })

/-- Source: setMetaTag(name, content) — upsert `meta[name=...]` and set
its content; no-op on empty content. -/
def setMetaTag (name content : String) (d : Doc) : Doc :=
  if content = "" then d
  else
    let r := getOrCreateMetaTag "name" name d
    { r.2 with elems := writeAt r.2.elems r.1 "content" content }

/-- Source: setMetaProperty(property, content) — upsert
`meta[property=...]`; no-op on undefined/null/empty content. -/
def setMetaProperty (property : String) (content : Option String) (d : Doc) : Doc :=
  match content with
  | none => d
  | some c =>
    if c = "" then d
    else
      let r := getOrCreateMetaTag "property" property d
      { r.2 with elems := writeAt r.2.elems r.1 "content" c }

/-- Source: setTitle(title) — assign document.title unless empty. -/
def setTitle (title : String) (d : Doc) : Doc :=
  if title = "" then d else { d with title := title }

/-- Source: setCanonical(url) — upsert `link[rel="canonical"]` and set
its href; no-op on empty url. -/
def setCanonical (url : String) (d : Doc) : Doc :=
  if url = "" then d
  else
    match d.elems.findIdx? (selPred "link" "rel" "canonical") with
    | some i => { d with elems := writeAt d.elems i "href" url }
    | none =>
      let created := d.elems ++ [Elem.mk "link" [("rel", "canonical")] ""]
      { d with elems := writeAt created d.elems.length "href" url }

/-- Source: removeCanonical() — remove the first `link[rel="canonical"]`
if present. -/
def removeCanonical (d : Doc) : Doc :=
  { d with elems := removeFirstBy (selPred "link" "rel" "canonical") d.elems }

/-- Open Graph record: the well-known fields plus the remaining
`og:`-prefixed keys of the record in insertion order (values optional
as in the TypeScript index signature). -/
structure OpenGraphMeta where
  title : Option String := none
  description : Option String := none
  type : Option String := none
  url : Option String := none
  image : Option String := none
  imageWidth : Option String := none
  imageHeight : Option String := none
  imageAlt : Option String := none
  siteName : Option String := none
  locale : Option String := none
  extra : List (String × Option String) := []
deriving DecidableEq, Repr

/-- Twitter Card record, analogous to `OpenGraphMeta`. -/
structure TwitterCardMeta where
  card : Option String := none
  site : Option String := none
  creator : Option String := none
  title : Option String := none
  description : Option String := none
  image : Option String := none
  imageAlt : Option String := none
  extra : List (String × Option String) := []
deriving DecidableEq, Repr

/-- Custom meta tag entry (content is a required field of the type). -/
structure CustomMeta where
  name : Option String := none
  property : Option String := none
  content : String
  httpEquiv : Option String := none
  charset : Option String := none
deriving DecidableEq, Repr

/-- JSON-LD payload, represented by its JSON.stringify serialization. -/
def JsonLd := String
deriving instance DecidableEq, Repr for JsonLd

/-- Model of JSON.stringify on the payload representation. -/
def stringifyJson (j : JsonLd) : String := j

/-- Keywords field: a single string or an ordered sequence of strings. -/
inductive KeywordsVal where
  | str (s : String)
  | arr (l : List String)
deriving DecidableEq, Repr

/-- Source: formatKeywords — join an array with ", ", use a string
verbatim, empty result when absent. -/
def formatKeywords : Option KeywordsVal → String
  | none => ""
  | some (.str s) => if s = "" then "" else s
  | some (.arr l) => String.intercalate ", " l

/-- Model of JS String.prototype.startsWith (character-level prefix
test), kept kernel-reducible. -/
def strStartsWith (s pre : String) : Bool :=
  List.isPrefixOf pre.data s.data

/-- Keys of the additional og:* properties loop that are skipped because
they collide with the well-known field names. -/
def ogExcluded : List String :=
  ["og:title", "og:description", "og:type", "og:url", "og:image",
   "og:imageWidth", "og:imageHeight", "og:imageAlt", "og:siteName", "og:locale"]

/-- Keys of the additional twitter:* properties loop that are skipped. -/
def twitterExcluded : List String :=
  ["twitter:card", "twitter:site", "twitter:creator", "twitter:title",
   "twitter:description", "twitter:image", "twitter:imageAlt"]

/-- Source: setOpenGraphTags(og) — the ten well-known properties, then
every remaining key of the record that starts with `og:`. -/
def setOpenGraphTags (og : OpenGraphMeta) (d : Doc) : Doc :=
  let d := if isTruthy og.title then setMetaProperty "og:title" og.title d else d
  let d := if isTruthy og.description then setMetaProperty "og:description" og.description d else d
  let d := if isTruthy og.type then setMetaProperty "og:type" og.type d else d
  let d := if isTruthy og.url then setMetaProperty "og:url" og.url d else d
  let d := if isTruthy og.image then setMetaProperty "og:image" og.image d else d
  let d := if isTruthy og.imageWidth then setMetaProperty "og:image:width" og.imageWidth d else d
  let d := if isTruthy og.imageHeight then setMetaProperty "og:image:height" og.imageHeight d else d
  let d := if isTruthy og.imageAlt then setMetaProperty "og:image:alt" og.imageAlt d else d
  let d := if isTruthy og.siteName then setMetaProperty "og:site_name" og.siteName d else d
  let d := if isTruthy og.locale then setMetaProperty "og:locale" og.locale d else d
  og.extra.foldl (fun d kv =>
    if strStartsWith kv.1 "og:" && !(ogExcluded.contains kv.1) then
      match kv.2 with
      | some v => if v = "" then d else setMetaProperty kv.1 (some v) d
      | none => d
    else d) d

/-- Source: setTwitterCardTags(twitter) — the seven well-known names,
then every remaining key of the record that starts with `twitter:`. -/
def setTwitterCardTags (tw : TwitterCardMeta) (d : Doc) : Doc :=
  let d := if isTruthy tw.card then setMetaTag "twitter:card" (tw.card.getD "") d else d
  let d := if isTruthy tw.site then setMetaTag "twitter:site" (tw.site.getD "") d else d
  let d := if isTruthy tw.creator then setMetaTag "twitter:creator" (tw.creator.getD "") d else d
  let d := if isTruthy tw.title then setMetaTag "twitter:title" (tw.title.getD "") d else d
  let d := if isTruthy tw.description then setMetaTag "twitter:description" (tw.description.getD "") d else d
  let d := if isTruthy tw.image then setMetaTag "twitter:image" (tw.image.getD "") d else d
  let d := if isTruthy tw.imageAlt then setMetaTag "twitter:image:alt" (tw.imageAlt.getD "") d else d
  tw.extra.foldl (fun d kv =>
    if strStartsWith kv.1 "twitter:" && !(twitterExcluded.contains kv.1) then
      match kv.2 with
      | some v => if v = "" then d else setMetaTag kv.1 v d
      | none => d
    else d) d

/-- One step of the setCustomMetaTags forEach body: skip empty content,
then resolve name, else property, else http-equiv, else charset (the
charset branch creates the element as the first head child only when no
`meta[charset]` exists, and never sets content on it). -/
def customStep (d : Doc) (m : CustomMeta) : Doc :=
  if m.content = "" then d
  else if isTruthy m.name then
    let r := getOrCreateMetaTag "name" (m.name.getD "") d
    { r.2 with elems := writeAt r.2.elems r.1 "content" m.content }
  else if isTruthy m.property then
    let r := getOrCreateMetaTag "property" (m.property.getD "") d
    { r.2 with elems := writeAt r.2.elems r.1 "content" m.content }
  else if isTruthy m.httpEquiv then
    match d.elems.findIdx? (selPred "meta" "http-equiv" (m.httpEquiv.getD "")) with
    | some i => { d with elems := writeAt d.elems i "content" m.content }
    | none =>
      let created := d.elems ++ [Elem.mk "meta" [("http-equiv", m.httpEquiv.getD "")] ""]
      { d with elems := writeAt created d.elems.length "content" m.content }
  else if isTruthy m.charset then
    if d.elems.any charsetSel then d
    else { d with elems := Elem.mk "meta" [("charset", m.charset.getD "")] "" :: d.elems }
  else d

/-- Source: setCustomMetaTags(customMeta) — forEach over the entries. -/
def setCustomMetaTags (customMeta : List CustomMeta) (d : Doc) : Doc :=
  customMeta.foldl customStep d

/-- Source: injectJsonLd(data, id?) — build a script of type
application/ld+json; when the id is truthy, set it and remove any
existing element with that id; append the script to the head.  The
returned disposer is not modelled (the hook API discards it). -/
def injectJsonLd (data : JsonLd) (id : Option String) (d : Doc) : Doc :=
  if isTruthy id then
    let idv := id.getD ""
    let script : Elem :=
      { (Elem.setAttr ⟨"script", [("type", "application/ld+json")], ""⟩ "id" idv) with
        text := stringifyJson data }
    { d with elems := removeFirstBy (byId idv) d.elems ++ [script] }
  else
    { d with elems := d.elems ++ [⟨"script", [("type", "application/ld+json")], stringifyJson data⟩] }

/-- Source: removeJsonLd(id) — remove the element found by id, but only
when its type attribute is exactly application/ld+json. -/
def removeJsonLd (id : String) (d : Doc) : Doc :=
  match d.elems.find? (byId id) with
  | some e =>
    if e.getAttr "type" == some "application/ld+json" then
      { d with elems := removeFirstBy (byId id) d.elems }
    else d
  | none => d

/-- Fixed marker id of the reconciler-owned JSON-LD script. -/
def JSON_LD_ID : String := "react-client-seo-jsonld"

/-- Props of the useSeo updateSeo call (all fields optional, matching
the SeoProps interface). -/
structure SeoProps where
  title : Option String := none
  description : Option String := none
  keywords : Option KeywordsVal := none
  author : Option String := none
  robots : Option String := none
  language : Option String := none
  viewport : Option String := none
  generator : Option String := none
  revisitAfter : Option String := none
  rating : Option String := none
  distribution : Option String := none
  copyright : Option String := none
  themeColor : Option String := none
  referrer : Option String := none
  formatDetection : Option String := none
  mobileWebAppCapable : Option String := none
  appleMobileWebAppCapable : Option String := none
  geoRegion : Option String := none
  geoPlacename : Option String := none
  geoPosition : Option String := none
  icbm : Option String := none
  canonical : Option String := none
  ogImage : Option String := none
  ogType : Option String := none
  ogUrl : Option String := none
  ogTitle : Option String := none
  ogDescription : Option String := none
  ogSiteName : Option String := none
  ogLocale : Option String := none
  twitterCard : Option String := none
  twitterSite : Option String := none
  twitterCreator : Option String := none
  twitterTitle : Option String := none
  twitterDescription : Option String := none
  twitterImage : Option String := none
  twitterImageAlt : Option String := none
  jsonLd : Option JsonLd := none
  customMeta : Option (List CustomMeta) := none
  openGraph : Option OpenGraphMeta := none
  twitter : Option TwitterCardMeta := none
deriving DecidableEq, Repr

/-- The ogData object built inside updateSeo: spread of the openGraph
record, then conditional assignments from the flat props (each
assignment happens whenever its JS condition is truthy, overwriting a
key already present from the spread). -/
def mkOgData (p : SeoProps) : OpenGraphMeta :=
  let og := p.openGraph.getD {}
  let og := if isTruthy (jsOr p.ogTitle p.title) then { og with title := jsOr p.ogTitle p.title } else og
  let og := if isTruthy (jsOr p.ogDescription p.description) then { og with description := jsOr p.ogDescription p.description } else og
  let og := if isTruthy p.ogType then { og with type := p.ogType } else og
  let og := if isTruthy (jsOr p.ogUrl p.canonical) then { og with url := jsOr p.ogUrl p.canonical } else og
  let og := if isTruthy p.ogImage then { og with image := p.ogImage } else og
  let og := if isTruthy p.ogSiteName then { og with siteName := p.ogSiteName } else og
  let og := if isTruthy p.ogLocale then { og with locale := p.ogLocale } else og
  og

/-- Object.keys(ogData).length > 0: some well-known field is present or
the record has additional keys. -/
def ogHasKeys (og : OpenGraphMeta) : Bool :=
  og.title.isSome || og.description.isSome || og.type.isSome || og.url.isSome ||
  og.image.isSome || og.imageWidth.isSome || og.imageHeight.isSome ||
  og.imageAlt.isSome || og.siteName.isSome || og.locale.isSome || !og.extra.isEmpty

/-- The twitterData object built inside updateSeo: spread of the twitter
record, then conditional assignments from the flat props. -/
def mkTwitterData (p : SeoProps) : TwitterCardMeta :=
  let tw := p.twitter.getD {}
  let tw := if isTruthy p.twitterCard then { tw with card := p.twitterCard } else tw
  let tw := if isTruthy p.twitterSite then { tw with site := p.twitterSite } else tw
  let tw := if isTruthy p.twitterCreator then { tw with creator := p.twitterCreator } else tw
  let tw := if isTruthy (jsOr p.twitterTitle p.title) then { tw with title := jsOr p.twitterTitle p.title } else tw
  let tw := if isTruthy (jsOr p.twitterDescription p.description) then { tw with description := jsOr p.twitterDescription p.description } else tw
  let tw := if isTruthy (jsOr p.twitterImage p.ogImage) then { tw with image := jsOr p.twitterImage p.ogImage } else tw
  let tw := if isTruthy p.twitterImageAlt then { tw with imageAlt := p.twitterImageAlt } else tw
  tw

/-- Object.keys(twitterData).length > 0. -/
def twHasKeys (tw : TwitterCardMeta) : Bool :=
  tw.card.isSome || tw.site.isSome || tw.creator.isSome || tw.title.isSome ||
  tw.description.isSome || tw.image.isSome || tw.imageAlt.isSome || !tw.extra.isEmpty

/-- Source: the updateSeo callback of useSeo — the full reconciliation
pipeline in source order. -/
def updateSeo (p : SeoProps) (d : Doc) : Doc :=
  let d := if isTruthy p.title then setTitle (p.title.getD "") d else d
  let d := if isTruthy p.description then setMetaTag "description" (p.description.getD "") d else d
  let keywordsStr := formatKeywords p.keywords
  let d := if keywordsStr != "" then setMetaTag "keywords" keywordsStr d else d
  let d := if isTruthy p.author then setMetaTag "author" (p.author.getD "") d else d
  let d := if isTruthy p.robots then setMetaTag "robots" (p.robots.getD "") d else d
  let d := if isTruthy p.language then
      setMetaTag "content-language" (p.language.getD "")
        (setMetaTag "language" (p.language.getD "") d)
    else d
  let d := if isTruthy p.viewport then setMetaTag "viewport" (p.viewport.getD "") d else d
  let d := if isTruthy p.generator then setMetaTag "generator" (p.generator.getD "") d else d
  let d := if isTruthy p.revisitAfter then setMetaTag "revisit-after" (p.revisitAfter.getD "") d else d
  let d := if isTruthy p.rating then setMetaTag "rating" (p.rating.getD "") d else d
  let d := if isTruthy p.distribution then setMetaTag "distribution" (p.distribution.getD "") d else d
  let d := if isTruthy p.copyright then setMetaTag "copyright" (p.copyright.getD "") d else d
  let d := if isTruthy p.themeColor then setMetaTag "theme-color" (p.themeColor.getD "") d else d
  let d := if isTruthy p.referrer then setMetaTag "referrer" (p.referrer.getD "") d else d
  let d := if isTruthy p.formatDetection then setMetaTag "format-detection" (p.formatDetection.getD "") d else d
  let d := if isTruthy p.mobileWebAppCapable then setMetaTag "mobile-web-app-capable" (p.mobileWebAppCapable.getD "") d else d
  let d := if isTruthy p.appleMobileWebAppCapable then setMetaTag "apple-mobile-web-app-capable" (p.appleMobileWebAppCapable.getD "") d else d
  let d := if isTruthy p.geoRegion then setMetaTag "geo.region" (p.geoRegion.getD "") d else d
  let d := if isTruthy p.geoPlacename then setMetaTag "geo.placename" (p.geoPlacename.getD "") d else d
  let d := if isTruthy p.geoPosition then setMetaTag "geo.position" (p.geoPosition.getD "") d else d
  let d := if isTruthy p.icbm then setMetaTag "ICBM" (p.icbm.getD "") d else d
  let d := if isTruthy p.canonical then setCanonical (p.canonical.getD "") d else d
  let ogData := mkOgData p
  let d := if ogHasKeys ogData then setOpenGraphTags ogData d else d
  let twitterData := mkTwitterData p
  let d := if twHasKeys twitterData then setTwitterCardTags twitterData d else d
  let d := match p.customMeta with
    | some l => setCustomMetaTags l d
    | none => d
  match p.jsonLd with
  | some j => injectJsonLd j (some JSON_LD_ID) d
  | none => d

/-- Source: the clearSeo callback of useSeo. -/
def clearSeo (d : Doc) : Doc :=
  removeJsonLd JSON_LD_ID (removeCanonical d)

/-- The empty document (empty head, empty title). -/
def emptyDoc : Doc := ⟨"", []⟩

/-
Abstract write operations.  Every head mutation performed by updateSeo
is one of: a title assignment, an upsert of a value attribute on the
first element matching a selector (creating an appended element when
none matches), the charset special case (prepend once), or the JSON-LD
replacement (remove by id, append a fresh script).  The pipeline is
proved equal to executing the list of operations it denotes, and the
behavioural theorems are proved about operation lists.
-/

/-- Abstract head-write operation. -/
inductive Op where
  | otitle (v : String)
  | oupsert (tag attr key va val : String)
  | ocharset (v : String)
  | oreplace (id txt : String)
deriving DecidableEq, Repr

/-- The element freshly created by an upsert that found no match. -/
def newUpsertElem (tag attr key va val : String) : Elem :=
  Elem.setAttr ⟨tag, [(attr, key)], ""⟩ va val

/-- The charset element created by the charset special case. -/
def charsetElem (v : String) : Elem := ⟨"meta", [("charset", v)], ""⟩

/-- The reconciler-owned JSON-LD script element. -/
def ldScript (id txt : String) : Elem :=
  { Elem.setAttr ⟨"script", [("type", "application/ld+json")], ""⟩ "id" id with text := txt }

/-- Effect of one operation on the element list of the head. -/
def applyOpE : Op → List Elem → List Elem
  | .otitle _, E => E
  | .oupsert tag attr key va val, E =>
    match E.findIdx? (selPred tag attr key) with
    | some i => writeAt E i va val
    | none => E ++ [newUpsertElem tag attr key va val]
  | .ocharset v, E => if E.any charsetSel then E else charsetElem v :: E
  | .oreplace id txt, E => removeFirstBy (byId id) E ++ [ldScript id txt]

/-- Effect of one operation on the document title. -/
def applyOpT : Op → String → String
  | .otitle v, _ => v
  | _, t => t

/-- Effect of one operation on the whole document. -/
def applyOp (op : Op) (d : Doc) : Doc :=
  ⟨applyOpT op d.title, applyOpE op d.elems⟩

/-- Execute a list of operations on the element list. -/
def execE (l : List Op) (E : List Elem) : List Elem :=
  l.foldl (fun E op => applyOpE op E) E

/-- Execute a list of operations on the title. -/
def execT (l : List Op) (t : String) : String :=
  l.foldl (fun t op => applyOpT op t) t

/-- Execute a list of operations on the document. -/
def execOps (l : List Op) (d : Doc) : Doc :=
  l.foldl (fun d op => applyOp op d) d

/-- Upsert of `meta[name=key]`. -/
def upsertName (key val : String) : Op := .oupsert "meta" "name" key "content" val

/-- Upsert of `meta[property=key]`. -/
def upsertProp (key val : String) : Op := .oupsert "meta" "property" key "content" val

/-- Upsert of `meta[http-equiv=key]`. -/
def upsertHttp (key val : String) : Op := .oupsert "meta" "http-equiv" key "content" val

/-- Upsert of `link[rel="canonical"]`. -/
def upsertCanonical (url : String) : Op := .oupsert "link" "rel" "canonical" "href" url

/-- Operation emitted for one entry of the additional og:* loop. -/
def ogExtraOp (kv : String × Option String) : List Op :=
  if strStartsWith kv.1 "og:" && !(ogExcluded.contains kv.1) then
    match kv.2 with
    | some v => if v = "" then [] else [upsertProp kv.1 v]
    | none => []
  else []

/-- Operations denoted by setOpenGraphTags. -/
def ogOps (og : OpenGraphMeta) : List Op :=
  (if isTruthy og.title then [upsertProp "og:title" (og.title.getD "")] else []) ++
  (if isTruthy og.description then [upsertProp "og:description" (og.description.getD "")] else []) ++
  (if isTruthy og.type then [upsertProp "og:type" (og.type.getD "")] else []) ++
  (if isTruthy og.url then [upsertProp "og:url" (og.url.getD "")] else []) ++
  (if isTruthy og.image then [upsertProp "og:image" (og.image.getD "")] else []) ++
  (if isTruthy og.imageWidth then [upsertProp "og:image:width" (og.imageWidth.getD "")] else []) ++
  (if isTruthy og.imageHeight then [upsertProp "og:image:height" (og.imageHeight.getD "")] else []) ++
  (if isTruthy og.imageAlt then [upsertProp "og:image:alt" (og.imageAlt.getD "")] else []) ++
  (if isTruthy og.siteName then [upsertProp "og:site_name" (og.siteName.getD "")] else []) ++
  (if isTruthy og.locale then [upsertProp "og:locale" (og.locale.getD "")] else []) ++
  og.extra.flatMap ogExtraOp

/-- Operation emitted for one entry of the additional twitter:* loop. -/
def twExtraOp (kv : String × Option String) : List Op :=
  if strStartsWith kv.1 "twitter:" && !(twitterExcluded.contains kv.1) then
    match kv.2 with
    | some v => if v = "" then [] else [upsertName kv.1 v]
    | none => []
  else []

/-- Operations denoted by setTwitterCardTags. -/
def twOps (tw : TwitterCardMeta) : List Op :=
  (if isTruthy tw.card then [upsertName "twitter:card" (tw.card.getD "")] else []) ++
  (if isTruthy tw.site then [upsertName "twitter:site" (tw.site.getD "")] else []) ++
  (if isTruthy tw.creator then [upsertName "twitter:creator" (tw.creator.getD "")] else []) ++
  (if isTruthy tw.title then [upsertName "twitter:title" (tw.title.getD "")] else []) ++
  (if isTruthy tw.description then [upsertName "twitter:description" (tw.description.getD "")] else []) ++
  (if isTruthy tw.image then [upsertName "twitter:image" (tw.image.getD "")] else []) ++
  (if isTruthy tw.imageAlt then [upsertName "twitter:image:alt" (tw.imageAlt.getD "")] else []) ++
  tw.extra.flatMap twExtraOp

/-- Operations denoted by one custom-tag entry. -/
def customEntryOps (m : CustomMeta) : List Op :=
  if m.content = "" then []
  else if isTruthy m.name then [upsertName (m.name.getD "") m.content]
  else if isTruthy m.property then [upsertProp (m.property.getD "") m.content]
  else if isTruthy m.httpEquiv then [upsertHttp (m.httpEquiv.getD "") m.content]
  else if isTruthy m.charset then [.ocharset (m.charset.getD "")]
  else []

/-- Operations denoted by setCustomMetaTags. -/
def customOps (l : List CustomMeta) : List Op :=
  l.flatMap customEntryOps

/-- Operations denoted by the updateSeo pipeline before the JSON-LD
stage. -/
def opsMain (p : SeoProps) : List Op :=
  (if isTruthy p.title then [Op.otitle (p.title.getD "")] else []) ++
  (if isTruthy p.description then [upsertName "description" (p.description.getD "")] else []) ++
  (if formatKeywords p.keywords != "" then [upsertName "keywords" (formatKeywords p.keywords)] else []) ++
  (if isTruthy p.author then [upsertName "author" (p.author.getD "")] else []) ++
  (if isTruthy p.robots then [upsertName "robots" (p.robots.getD "")] else []) ++
  (if isTruthy p.language then
      [upsertName "language" (p.language.getD ""), upsertName "content-language" (p.language.getD "")]
    else []) ++
  (if isTruthy p.viewport then [upsertName "viewport" (p.viewport.getD "")] else []) ++
  (if isTruthy p.generator then [upsertName "generator" (p.generator.getD "")] else []) ++
  (if isTruthy p.revisitAfter then [upsertName "revisit-after" (p.revisitAfter.getD "")] else []) ++
  (if isTruthy p.rating then [upsertName "rating" (p.rating.getD "")] else []) ++
  (if isTruthy p.distribution then [upsertName "distribution" (p.distribution.getD "")] else []) ++
  (if isTruthy p.copyright then [upsertName "copyright" (p.copyright.getD "")] else []) ++
  (if isTruthy p.themeColor then [upsertName "theme-color" (p.themeColor.getD "")] else []) ++
  (if isTruthy p.referrer then [upsertName "referrer" (p.referrer.getD "")] else []) ++
  (if isTruthy p.formatDetection then [upsertName "format-detection" (p.formatDetection.getD "")] else []) ++
  (if isTruthy p.mobileWebAppCapable then [upsertName "mobile-web-app-capable" (p.mobileWebAppCapable.getD "")] else []) ++
  (if isTruthy p.appleMobileWebAppCapable then [upsertName "apple-mobile-web-app-capable" (p.appleMobileWebAppCapable.getD "")] else []) ++
  (if isTruthy p.geoRegion then [upsertName "geo.region" (p.geoRegion.getD "")] else []) ++
  (if isTruthy p.geoPlacename then [upsertName "geo.placename" (p.geoPlacename.getD "")] else []) ++
  (if isTruthy p.geoPosition then [upsertName "geo.position" (p.geoPosition.getD "")] else []) ++
  (if isTruthy p.icbm then [upsertName "ICBM" (p.icbm.getD "")] else []) ++
  (if isTruthy p.canonical then [upsertCanonical (p.canonical.getD "")] else []) ++
  (if ogHasKeys (mkOgData p) then ogOps (mkOgData p) else []) ++
  (if twHasKeys (mkTwitterData p) then twOps (mkTwitterData p) else []) ++
  (match p.customMeta with
   | some l => customOps l
   | none => [])

/-- Operation denoted by the JSON-LD stage. -/
def jsonLdOps (p : SeoProps) : List Op :=
  match p.jsonLd with
  | some j => [Op.oreplace JSON_LD_ID (stringifyJson j)]
  | none => []

/-- All operations denoted by one updateSeo call. -/
def opsOf (p : SeoProps) : List Op :=
  opsMain p ++ jsonLdOps p

theorem execOps_nil (d : Doc) : execOps [] d = d := rfl

theorem execOps_append (l1 l2 : List Op) (d : Doc) :
    execOps (l1 ++ l2) d = execOps l2 (execOps l1 d) := by
  simp [execOps, List.foldl_append]

theorem execE_nil (E : List Elem) : execE [] E = E := rfl

theorem execE_cons (op : Op) (l : List Op) (E : List Elem) :
    execE (op :: l) E = execE l (applyOpE op E) := rfl

theorem execE_append (l1 l2 : List Op) (E : List Elem) :
    execE (l1 ++ l2) E = execE l2 (execE l1 E) := by
  simp [execE, List.foldl_append]

theorem execT_append (l1 l2 : List Op) (t : String) :
    execT (l1 ++ l2) t = execT l2 (execT l1 t) := by
  simp [execT, List.foldl_append]

/-- Executing on a document acts componentwise on title and elements. -/
theorem execOps_parts (l : List Op) (d : Doc) :
    execOps l d = ⟨execT l d.title, execE l d.elems⟩ := by
  induction l generalizing d with
  | nil => rfl
  | cons op t ih => simpa [execOps, execE, execT, List.foldl_cons, applyOp] using ih (applyOp op d)

theorem execOps_elems (l : List Op) (d : Doc) :
    (execOps l d).elems = execE l d.elems := by
  rw [execOps_parts]

theorem execOps_title (l : List Op) (d : Doc) :
    (execOps l d).title = execT l d.title := by
  rw [execOps_parts]

theorem writeAt_append_length (E : List Elem) (e : Elem) (a v : String) :
    writeAt (E ++ [e]) E.length a v = E ++ [e.setAttr a v] := by
  induction E with
  | nil => rfl
  | cons x t ih => simp [writeAt, ih]

/-- The body shared by setMetaTag/setMetaProperty/customStep after their
guards equals the upsert operation. -/
theorem getOrCreate_write (attrKind key c : String) (d : Doc) :
    (let r := getOrCreateMetaTag attrKind key d
     { r.2 with elems := writeAt r.2.elems r.1 "content" c }) =
    applyOp (.oupsert "meta" attrKind key "content" c) d := by
  simp only [getOrCreateMetaTag, applyOp, applyOpT, applyOpE]
  cases hf : d.elems.findIdx? (selPred "meta" attrKind key) with
  | some i => simp
  | none => simp [newUpsertElem, writeAt_append_length, Elem.setAttr]

theorem setMetaTag_op (n c : String) (h : c ≠ "") (d : Doc) :
    setMetaTag n c d = applyOp (upsertName n c) d := by
  rw [setMetaTag, if_neg h, upsertName]
  exact getOrCreate_write "name" n c d

theorem setMetaProperty_op (key : String) (o : Option String) (h : isTruthy o = true) (d : Doc) :
    setMetaProperty key o d = applyOp (upsertProp key (o.getD "")) d := by
  cases o with
  | none => simp [isTruthy] at h
  | some c =>
    have hc : c ≠ "" := by simpa [isTruthy] using h
    rw [setMetaProperty, upsertProp]
    simp only [Option.getD, if_neg hc]
    exact getOrCreate_write "property" key c d

theorem setTitle_op (t : String) (h : t ≠ "") (d : Doc) :
    setTitle t d = applyOp (.otitle t) d := by
  simp [setTitle, applyOp, applyOpT, applyOpE, h]

theorem setCanonical_op (u : String) (h : u ≠ "") (d : Doc) :
    setCanonical u d = applyOp (upsertCanonical u) d := by
  rw [setCanonical, if_neg h]
  simp only [upsertCanonical, applyOp, applyOpT, applyOpE]
  cases hf : d.elems.findIdx? (selPred "link" "rel" "canonical") with
  | some i => simp
  | none => simp [newUpsertElem, writeAt_append_length, Elem.setAttr]

theorem injectJsonLd_op (j : JsonLd) (d : Doc) :
    injectJsonLd j (some JSON_LD_ID) d = applyOp (.oreplace JSON_LD_ID (stringifyJson j)) d := by
  have h : isTruthy (some JSON_LD_ID) = true := by decide
  simp [injectJsonLd, h, applyOp, applyOpT, applyOpE, ldScript, Option.getD]

theorem title_stage (o : Option String) (d : Doc) :
    (if isTruthy o then setTitle (o.getD "") d else d) =
    execOps (if isTruthy o then [Op.otitle (o.getD "")] else []) d := by
  by_cases h : isTruthy o = true
  · have hne : o.getD "" ≠ "" := by
      cases o with
      | none => simp [isTruthy] at h
      | some s => simpa [isTruthy] using h
    simp [h, setTitle_op _ hne, execOps]
  · simp [h, execOps]

theorem metaTag_stage (o : Option String) (n : String) (d : Doc) :
    (if isTruthy o then setMetaTag n (o.getD "") d else d) =
    execOps (if isTruthy o then [upsertName n (o.getD "")] else []) d := by
  by_cases h : isTruthy o = true
  · have hne : o.getD "" ≠ "" := by
      cases o with
      | none => simp [isTruthy] at h
      | some s => simpa [isTruthy] using h
    simp [h, setMetaTag_op _ _ hne, execOps]
  · simp [h, execOps]

theorem keywords_stage (s n : String) (d : Doc) :
    (if s != "" then setMetaTag n s d else d) =
    execOps (if s != "" then [upsertName n s] else []) d := by
  by_cases h : s = ""
  · simp [h, execOps]
  · simp [h, setMetaTag_op _ _ h, execOps]

theorem language_stage (o : Option String) (d : Doc) :
    (if isTruthy o then
        setMetaTag "content-language" (o.getD "") (setMetaTag "language" (o.getD "") d)
      else d) =
    execOps (if isTruthy o then
        [upsertName "language" (o.getD ""), upsertName "content-language" (o.getD "")]
      else []) d := by
  by_cases h : isTruthy o = true
  · have hne : o.getD "" ≠ "" := by
      cases o with
      | none => simp [isTruthy] at h
      | some s => simpa [isTruthy] using h
    simp [h, setMetaTag_op _ _ hne, execOps]
  · simp [h, execOps]

theorem canonical_stage (o : Option String) (d : Doc) :
    (if isTruthy o then setCanonical (o.getD "") d else d) =
    execOps (if isTruthy o then [upsertCanonical (o.getD "")] else []) d := by
  by_cases h : isTruthy o = true
  · have hne : o.getD "" ≠ "" := by
      cases o with
      | none => simp [isTruthy] at h
      | some s => simpa [isTruthy] using h
    simp [h, setCanonical_op _ hne, execOps]
  · simp [h, execOps]

theorem ogProp_stage (key : String) (o : Option String) (d : Doc) :
    (if isTruthy o then setMetaProperty key o d else d) =
    execOps (if isTruthy o then [upsertProp key (o.getD "")] else []) d := by
  by_cases h : isTruthy o = true
  · simp [h, setMetaProperty_op _ _ h, execOps]
  · simp [h, execOps]

theorem og_extra_fold (ex : List (String × Option String)) (d : Doc) :
    ex.foldl (fun d kv =>
      if strStartsWith kv.1 "og:" && !(ogExcluded.contains kv.1) then
        match kv.2 with
        | some v => if v = "" then d else setMetaProperty kv.1 (some v) d
        | none => d
      else d) d =
    execOps (ex.flatMap ogExtraOp) d := by
  induction ex generalizing d with
  | nil => rfl
  | cons kv t ih =>
    rw [List.foldl_cons, List.flatMap_cons, execOps_append, ← ih]
    congr 1
    unfold ogExtraOp
    by_cases hg : (strStartsWith kv.1 "og:" && !(ogExcluded.contains kv.1)) = true
    · rw [if_pos hg, if_pos hg]
      cases hv : kv.2 with
      | none => simp [execOps]
      | some v =>
        by_cases hve : v = ""
        · simp [hve, execOps]
        · have ht : isTruthy (some v) = true := by simpa [isTruthy] using hve
          simp [hve, execOps, setMetaProperty_op _ _ ht]
    · rw [if_neg hg, if_neg hg]
      simp [execOps]

theorem setOpenGraphTags_ops (og : OpenGraphMeta) (d : Doc) :
    setOpenGraphTags og d = execOps (ogOps og) d := by
  rw [setOpenGraphTags, ogOps]
  rw [og_extra_fold]
  rw [ogProp_stage "og:title", ogProp_stage "og:description", ogProp_stage "og:type",
      ogProp_stage "og:url", ogProp_stage "og:image", ogProp_stage "og:image:width",
      ogProp_stage "og:image:height", ogProp_stage "og:image:alt",
      ogProp_stage "og:site_name", ogProp_stage "og:locale"]
  simp only [execOps_append]

theorem tw_extra_fold (ex : List (String × Option String)) (d : Doc) :
    ex.foldl (fun d kv =>
      if strStartsWith kv.1 "twitter:" && !(twitterExcluded.contains kv.1) then
        match kv.2 with
        | some v => if v = "" then d else setMetaTag kv.1 v d
        | none => d
      else d) d =
    execOps (ex.flatMap twExtraOp) d := by
  induction ex generalizing d with
  | nil => rfl
  | cons kv t ih =>
    rw [List.foldl_cons, List.flatMap_cons, execOps_append, ← ih]
    congr 1
    unfold twExtraOp
    by_cases hg : (strStartsWith kv.1 "twitter:" && !(twitterExcluded.contains kv.1)) = true
    · rw [if_pos hg, if_pos hg]
      cases hv : kv.2 with
      | none => simp [execOps]
      | some v =>
        by_cases hve : v = ""
        · simp [hve, execOps]
        · simp [hve, execOps, setMetaTag_op _ _ hve]
    · rw [if_neg hg, if_neg hg]
      simp [execOps]

theorem setTwitterCardTags_ops (tw : TwitterCardMeta) (d : Doc) :
    setTwitterCardTags tw d = execOps (twOps tw) d := by
  rw [setTwitterCardTags, twOps]
  rw [tw_extra_fold]
  rw [metaTag_stage tw.card "twitter:card", metaTag_stage tw.site "twitter:site",
      metaTag_stage tw.creator "twitter:creator", metaTag_stage tw.title "twitter:title",
      metaTag_stage tw.description "twitter:description", metaTag_stage tw.image "twitter:image",
      metaTag_stage tw.imageAlt "twitter:image:alt"]
  simp only [execOps_append]

theorem customStep_ops (m : CustomMeta) (d : Doc) :
    customStep d m = execOps (customEntryOps m) d := by
  rw [customStep, customEntryOps]
  by_cases hc : m.content = ""
  · simp [hc, execOps]
  · simp only [hc, if_neg hc, if_false]
    by_cases hn : isTruthy m.name = true
    · simp [hn, execOps, getOrCreate_write, upsertName]
    · simp only [hn, if_false, Bool.false_eq_true]
      by_cases hp : isTruthy m.property = true
      · simp [hp, execOps, getOrCreate_write, upsertProp]
      · simp only [hp, if_false, Bool.false_eq_true]
        by_cases hh : isTruthy m.httpEquiv = true
        · simp only [hh, if_true]
          simp only [execOps, List.foldl_cons, List.foldl_nil, upsertHttp, applyOp,
            applyOpT, applyOpE]
          cases hf : d.elems.findIdx? (selPred "meta" "http-equiv" (m.httpEquiv.getD "")) with
          | some i => simp [hf]
          | none => simp [hf, newUpsertElem, writeAt_append_length, Elem.setAttr]
        · simp only [hh, if_false, Bool.false_eq_true]
          by_cases hch : isTruthy m.charset = true
          · simp only [hch, if_true]
            simp only [execOps, List.foldl_cons, List.foldl_nil, applyOp, applyOpT,
              applyOpE, charsetElem]
            by_cases ha : d.elems.any charsetSel = true
            · simp [ha]
            · rw [Bool.not_eq_true] at ha
              simp [ha]
          · simp [hch, execOps]

theorem setCustomMetaTags_ops (l : List CustomMeta) (d : Doc) :
    setCustomMetaTags l d = execOps (customOps l) d := by
  induction l generalizing d with
  | nil => rfl
  | cons m t ih =>
    rw [setCustomMetaTags, customOps, List.foldl_cons, List.flatMap_cons, execOps_append,
      ← customStep_ops]
    exact ih (customStep d m)

theorem og_stage (og : OpenGraphMeta) (d : Doc) :
    (if ogHasKeys og then setOpenGraphTags og d else d) =
    execOps (if ogHasKeys og then ogOps og else []) d := by
  by_cases h : ogHasKeys og = true <;> simp [h, setOpenGraphTags_ops, execOps]

theorem tw_stage (tw : TwitterCardMeta) (d : Doc) :
    (if twHasKeys tw then setTwitterCardTags tw d else d) =
    execOps (if twHasKeys tw then twOps tw else []) d := by
  by_cases h : twHasKeys tw = true <;> simp [h, setTwitterCardTags_ops, execOps]

theorem custom_stage (o : Option (List CustomMeta)) (d : Doc) :
    (match o with
     | some l => setCustomMetaTags l d
     | none => d) =
    execOps (match o with
     | some l => customOps l
     | none => []) d := by
  cases o with
  | none => rfl
  | some l => exact setCustomMetaTags_ops l d

theorem jsonLd_stage (o : Option JsonLd) (d : Doc) :
    (match o with
     | some j => injectJsonLd j (some JSON_LD_ID) d
     | none => d) =
    execOps (match o with
     | some j => [Op.oreplace JSON_LD_ID (stringifyJson j)]
     | none => []) d := by
  cases o with
  | none => rfl
  | some j => simp [injectJsonLd_op, execOps]

set_option maxHeartbeats 4000000 in
/-- The updateSeo pipeline is the execution of the operation list it
denotes. -/
theorem updateSeo_ops (p : SeoProps) (d : Doc) :
    updateSeo p d = execOps (opsOf p) d := by
  simp only [updateSeo, opsOf, opsMain, jsonLdOps, execOps_append,
    title_stage, metaTag_stage, keywords_stage, language_stage, canonical_stage,
    og_stage, tw_stage, custom_stage, jsonLd_stage]

/-
Well-formedness of the operations emitted by the pipeline, and basic
lemmas about attributes and selectors.
-/

/-- Attributes that hold element values (content of a meta, href of a
link); selectors never read them. -/
def valAttrs : List String := ["content", "href"]

/-- Shape of every upsert emitted by the pipeline: meta elements are
selected by name, property or http-equiv and written through content;
the canonical link is selected by rel and written through href. -/
def GoodOp : Op → Prop
  | .otitle _ => True
  | .oupsert tag attr _ va _ =>
      (tag = "meta" ∧ (attr = "name" ∨ attr = "property" ∨ attr = "http-equiv") ∧ va = "content") ∨
      (tag = "link" ∧ attr = "rel" ∧ va = "href")
  | .ocharset _ => True
  | .oreplace _ _ => True

/-- Operations that never remove an element. -/
def UpOp : Op → Prop
  | .oreplace _ _ => False
  | _ => True

theorem getAttr_setAttr_self (e : Elem) (a v : String) :
    (e.setAttr a v).getAttr a = some v := by
  show ((setPair e.attrs a v).find? (fun p => p.1 = a)).map (fun p => p.2) = some v
  induction e.attrs with
  | nil => simp [setPair, List.find?]
  | cons q t ih =>
    by_cases h : q.1 = a
    · simp [setPair, h, List.find?]
    · simp only [setPair]
      rw [if_neg h]
      simpa [List.find?_cons, h] using ih

theorem getAttr_setAttr_ne (e : Elem) (a b v : String) (h : a ≠ b) :
    (e.setAttr b v).getAttr a = e.getAttr a := by
  show ((setPair e.attrs b v).find? (fun p => p.1 = a)).map (fun p => p.2) = _
  unfold Elem.getAttr
  induction e.attrs with
  | nil => simp [setPair, List.find?, Ne.symm h]
  | cons q t ih =>
    by_cases hq : q.1 = b
    · by_cases hqa : q.1 = a
      · exact absurd (hqa.symm.trans hq) h
      · simp [setPair, hq, List.find?_cons, hqa, Ne.symm h]
    · simp only [setPair]
      rw [if_neg hq]
      by_cases hqa : q.1 = a
      · simp [List.find?_cons, hqa]
      · simpa [List.find?_cons, hqa] using ih

theorem tag_setAttr (e : Elem) (a v : String) : (e.setAttr a v).tag = e.tag := rfl

theorem text_setAttr (e : Elem) (a v : String) : (e.setAttr a v).text = e.text := rfl

theorem setPair_setPair (l : List (String × String)) (a v w : String) :
    setPair (setPair l a v) a w = setPair l a w := by
  induction l with
  | nil => simp [setPair]
  | cons q t ih =>
    by_cases h : q.1 = a
    · simp [setPair, h]
    · simp [setPair, h, ih]

/-- Writing the same attribute twice keeps only the last write. -/
theorem setAttr_setAttr (e : Elem) (a v w : String) :
    (e.setAttr a v).setAttr a w = e.setAttr a w := by
  simp [Elem.setAttr, setPair_setPair]

theorem setPair_of_lookup (l : List (String × String)) (a v : String)
    (h : (l.find? (fun p => p.1 = a)).map (fun p => p.2) = some v) :
    setPair l a v = l := by
  induction l with
  | nil => simp [List.find?] at h
  | cons q t ih =>
    by_cases hq : q.1 = a
    · cases q with
      | mk qa qv =>
        simp only at hq
        simp [List.find?_cons, hq] at h
        subst hq
        simp [setPair, h]
    · rw [List.find?_cons_of_neg] at h
      · rw [setPair, if_neg hq]
        simp [ih h]
      · simp [hq]

/-- Writing the value an attribute already has leaves the element
unchanged. -/
theorem setAttr_of_getAttr (e : Elem) (a v : String) (h : e.getAttr a = some v) :
    e.setAttr a v = e := by
  cases e with
  | mk tg at_ tx =>
    simp only [Elem.setAttr]
    congr 1
    exact setPair_of_lookup _ _ _ h

theorem selPred_setAttr (tag attr key : String) (e : Elem) (b v : String) (h : attr ≠ b) :
    selPred tag attr key (e.setAttr b v) = selPred tag attr key e := by
  simp [selPred, tag_setAttr, getAttr_setAttr_ne _ _ _ _ h]

theorem charsetSel_setAttr (e : Elem) (b v : String) (h : b ≠ "charset") :
    charsetSel (e.setAttr b v) = charsetSel e := by
  simp [charsetSel, tag_setAttr, getAttr_setAttr_ne _ _ _ _ (Ne.symm h)]

theorem byId_setAttr (id : String) (e : Elem) (b v : String) (h : b ≠ "id") :
    byId id (e.setAttr b v) = byId id e := by
  simp [byId, getAttr_setAttr_ne _ _ _ _ (Ne.symm h)]

/-- The freshly created upsert element matches its own selector whenever
the selector attribute differs from the value attribute. -/
theorem selPred_newUpsertElem (tag attr key va val : String) (h : attr ≠ va) :
    selPred tag attr key (newUpsertElem tag attr key va val) = true := by
  have h1 : (newUpsertElem tag attr key va val).getAttr attr = some key := by
    have h2 := getAttr_setAttr_ne ⟨tag, [(attr, key)], ""⟩ attr va val h
    rw [newUpsertElem, h2]
    simp [Elem.getAttr, List.find?]
  have h3 : (newUpsertElem tag attr key va val).tag = tag := rfl
  simp [selPred, h1, h3]

theorem charsetSel_charsetElem (v : String) : charsetSel (charsetElem v) = true := by
  simp [charsetElem, charsetSel, Elem.getAttr, List.find?]

theorem byId_ldScript (id txt : String) : byId id (ldScript id txt) = true := by
  simp [ldScript, byId, Elem.getAttr, Elem.setAttr, setPair, List.find?]

theorem length_writeAt (E : List Elem) (i : Nat) (a v : String) :
    (writeAt E i a v).length = E.length := by
  induction E generalizing i with
  | nil => rfl
  | cons e t ih =>
    cases i with
    | zero => simp [writeAt]
    | succ n => simp [writeAt, ih]

theorem writeAt_ge (E : List Elem) (i : Nat) (a v : String) (h : E.length ≤ i) :
    writeAt E i a v = E := by
  induction E generalizing i with
  | nil => rfl
  | cons e t ih =>
    cases i with
    | zero => simp at h
    | succ n =>
      rw [writeAt]
      simp only [List.length_cons, Nat.succ_le_succ_iff] at h
      rw [ih n h]

theorem getElem?_writeAt (E : List Elem) (i j : Nat) (a v : String) :
    (writeAt E i a v)[j]? =
      if j = i then (E[j]?.map (fun e => e.setAttr a v)) else E[j]? := by
  induction E generalizing i j with
  | nil => simp [writeAt]
  | cons e t ih =>
    cases i with
    | zero =>
      cases j with
      | zero => simp [writeAt]
      | succ m => simp [writeAt]
    | succ n =>
      cases j with
      | zero => simp [writeAt]
      | succ m => simpa [writeAt] using ih n m

theorem writeAt_append_left (E F : List Elem) (i : Nat) (a v : String) (h : i < E.length) :
    writeAt (E ++ F) i a v = writeAt E i a v ++ F := by
  induction E generalizing i with
  | nil => simp at h
  | cons e t ih =>
    cases i with
    | zero => simp [writeAt]
    | succ n =>
      simp only [List.length_cons, Nat.succ_lt_succ_iff] at h
      simp [writeAt, ih n h]

theorem filter_writeAt (P : Elem → Bool) (E : List Elem) (i : Nat) (a v : String)
    (hval : ∀ e, P (e.setAttr a v) = P e)
    (hP : ∀ e, E[i]? = some e → P e = false) :
    (writeAt E i a v).filter P = E.filter P := by
  induction E generalizing i with
  | nil => rfl
  | cons e t ih =>
    cases i with
    | zero =>
      have he : P e = false := hP e (by simp)
      have he2 : P (e.setAttr a v) = false := by rw [hval]; exact he
      simp [writeAt, List.filter_cons, he, he2]
    | succ n =>
      have ht : (writeAt t n a v).filter P = t.filter P :=
        ih n (fun x hx => hP x (by simpa using hx))
      simp [writeAt, List.filter_cons, ht]

theorem countP_writeAt (P : Elem → Bool) (E : List Elem) (i : Nat) (a v : String)
    (hval : ∀ e, P (e.setAttr a v) = P e) :
    (writeAt E i a v).countP P = E.countP P := by
  induction E generalizing i with
  | nil => rfl
  | cons e t ih =>
    cases i with
    | zero => simp [writeAt, List.countP_cons, hval]
    | succ n => simp [writeAt, List.countP_cons, ih n]

theorem findIdx?_cons0 (p : Elem → Bool) (e : Elem) (t : List Elem) :
    (e :: t).findIdx? p = if p e then some 0 else (t.findIdx? p).map (fun i => i + 1) := by
  rw [List.findIdx?_cons, List.findIdx?_succ]

theorem findIdx?_spec (p : Elem → Bool) (E : List Elem) (i : Nat)
    (h : E.findIdx? p = some i) : ∃ e, E[i]? = some e ∧ p e = true := by
  induction E generalizing i with
  | nil => simp [List.findIdx?] at h
  | cons e t ih =>
    rw [findIdx?_cons0] at h
    by_cases hp : p e = true
    · simp only [hp, if_true] at h
      cases h
      exact ⟨e, by simp, hp⟩
    · simp only [hp, if_false, Bool.false_eq_true] at h
      simp only [Option.map_eq_some'] at h
      obtain ⟨j, hj, rfl⟩ := h
      obtain ⟨x, hx, hpx⟩ := ih j hj
      exact ⟨x, by simpa using hx, hpx⟩

theorem findIdx?_lt_length (p : Elem → Bool) (E : List Elem) (i : Nat)
    (h : E.findIdx? p = some i) : i < E.length := by
  obtain ⟨e, he, _⟩ := findIdx?_spec p E i h
  exact (List.getElem?_eq_some_iff.mp he).1

theorem findIdx?_append_some (p : Elem → Bool) (E F : List Elem) (i : Nat)
    (h : E.findIdx? p = some i) : (E ++ F).findIdx? p = some i := by
  induction E generalizing i with
  | nil => simp [List.findIdx?] at h
  | cons e t ih =>
    rw [findIdx?_cons0] at h
    rw [List.cons_append, findIdx?_cons0]
    by_cases hp : p e = true
    · simpa [hp] using h
    · simp only [hp, if_false, Bool.false_eq_true] at h ⊢
      simp only [Option.map_eq_some'] at h
      obtain ⟨j, hj, rfl⟩ := h
      rw [ih j hj]
      rfl

theorem findIdx?_append_none (p : Elem → Bool) (E F : List Elem)
    (h : E.findIdx? p = none) :
    (E ++ F).findIdx? p = (F.findIdx? p).map (fun j => j + E.length) := by
  induction E with
  | nil => simp
  | cons e t ih =>
    rw [findIdx?_cons0] at h
    rw [List.cons_append, findIdx?_cons0]
    by_cases hp : p e = true
    · simp [hp] at h
    · simp only [hp, if_false, Bool.false_eq_true] at h ⊢
      simp only [Option.map_eq_none'] at h
      rw [ih h]
      cases F.findIdx? p with
      | none => rfl
      | some j => rfl

theorem findIdx?_none_iff (p : Elem → Bool) (E : List Elem) :
    E.findIdx? p = none ↔ ∀ e ∈ E, p e = false :=
  List.findIdx?_eq_none_iff

/-- findIdx? depends only on the predicate image of the list. -/
theorem findIdx?_congr (p : Elem → Bool) (E F : List Elem)
    (h : E.map p = F.map p) : E.findIdx? p = F.findIdx? p := by
  induction E generalizing F with
  | nil =>
    cases F with
    | nil => rfl
    | cons f t => simp at h
  | cons e t ih =>
    cases F with
    | nil => simp at h
    | cons f u =>
      simp only [List.map_cons, List.cons.injEq] at h
      rw [findIdx?_cons0, findIdx?_cons0, h.1, ih u h.2]

/-- any depends only on the predicate image of the list. -/
theorem any_congr_map (p : Elem → Bool) (E F : List Elem)
    (h : E.map p = F.map p) : E.any p = F.any p := by
  induction E generalizing F with
  | nil =>
    cases F with
    | nil => rfl
    | cons f t => simp at h
  | cons e t ih =>
    cases F with
    | nil => simp at h
    | cons f u =>
      simp only [List.map_cons, List.cons.injEq] at h
      simp [List.any_cons, h.1, ih u h.2]

theorem removeFirstBy_of_none (q : Elem → Bool) (E : List Elem)
    (h : ∀ e ∈ E, q e = false) : removeFirstBy q E = E := by
  induction E with
  | nil => rfl
  | cons e t ih =>
    rw [removeFirstBy, if_neg (by simp [h e (by simp)])]
    rw [ih (fun x hx => h x (by simp [hx]))]

theorem filter_removeFirstBy (P q : Elem → Bool) (E : List Elem)
    (h : ∀ e, q e = true → P e = false) :
    (removeFirstBy q E).filter P = E.filter P := by
  induction E with
  | nil => rfl
  | cons e t ih =>
    by_cases hq : q e = true
    · rw [removeFirstBy, if_pos hq, List.filter_cons, h e hq]
      simp
    · rw [removeFirstBy, if_neg hq, List.filter_cons, List.filter_cons, ih]

theorem countP_removeFirstBy_le (P q : Elem → Bool) (E : List Elem) :
    (removeFirstBy q E).countP P ≤ E.countP P := by
  induction E with
  | nil => exact Nat.le_refl _
  | cons e t ih =>
    by_cases hq : q e = true
    · rw [removeFirstBy, if_pos hq, List.countP_cons]
      omega
    · rw [removeFirstBy, if_neg hq, List.countP_cons, List.countP_cons]
      omega

theorem removeFirstBy_append_left (q : Elem → Bool) (A B : List Elem)
    (h : ∀ e ∈ A, q e = false) :
    removeFirstBy q (A ++ B) = A ++ removeFirstBy q B := by
  induction A with
  | nil => rfl
  | cons e t ih =>
    rw [List.cons_append, removeFirstBy, if_neg (by simp [h e (by simp)])]
    rw [ih (fun x hx => h x (by simp [hx])), List.cons_append]

/-
Frame and counting lemmas: an operation only modifies, removes or
creates elements matched by its own selector.
-/

/-- Elements an operation may modify or remove. -/
def opTouches : Op → Elem → Bool
  | .otitle _, _ => false
  | .oupsert tag attr key _ _, e => selPred tag attr key e
  | .ocharset _, e => charsetSel e
  | .oreplace id _, e => byId id e

/-- Elements an operation may create. -/
def opNew : Op → List Elem
  | .otitle _ => []
  | .oupsert tag attr key va val => [newUpsertElem tag attr key va val]
  | .ocharset v => [charsetElem v]
  | .oreplace id txt => [ldScript id txt]

theorem goodOp_upsert_facts {tag attr key va val : String}
    (h : GoodOp (.oupsert tag attr key va val)) :
    (va = "content" ∨ va = "href") ∧ attr ≠ va := by
  rcases h with ⟨-, hattr, rfl⟩ | ⟨-, rfl, rfl⟩
  · refine ⟨Or.inl rfl, ?_⟩
    rcases hattr with rfl | rfl | rfl <;> decide
  · exact ⟨Or.inr rfl, by decide⟩

theorem filter_applyOpE (P : Elem → Bool) (op : Op) (hgood : GoodOp op)
    (hval : ∀ e v, P (e.setAttr "content" v) = P e ∧ P (e.setAttr "href" v) = P e)
    (htouch : ∀ e, opTouches op e = true → P e = false)
    (E : List Elem) :
    (applyOpE op E).filter P = E.filter P := by
  cases op with
  | otitle v => rfl
  | oupsert tag attr key va val =>
    obtain ⟨hva, hne⟩ := goodOp_upsert_facts hgood
    have hv : ∀ e v', P (e.setAttr va v') = P e := by
      intro e v'
      rcases hva with rfl | rfl
      · exact (hval e v').1
      · exact (hval e v').2
    cases hf : E.findIdx? (selPred tag attr key) with
    | some i =>
      simp only [applyOpE, hf]
      apply filter_writeAt _ _ _ _ _ (fun e => hv e val)
      intro e he
      obtain ⟨e2, he2, hp2⟩ := findIdx?_spec _ _ _ hf
      rw [he2] at he
      cases he
      exact htouch _ hp2
    | none =>
      simp only [applyOpE, hf]
      rw [List.filter_append]
      have hPn : P (newUpsertElem tag attr key va val) = false :=
        htouch _ (selPred_newUpsertElem _ _ _ _ _ hne)
      simp [List.filter_cons, hPn]
  | ocharset v =>
    simp only [applyOpE]
    by_cases ha : E.any charsetSel = true
    · rw [if_pos ha]
    · rw [if_neg ha, List.filter_cons]
      have hPc : P (charsetElem v) = false := htouch _ (charsetSel_charsetElem v)
      simp [hPc]
  | oreplace id txt =>
    simp only [applyOpE]
    rw [List.filter_append]
    have h1 : (removeFirstBy (byId id) E).filter P = E.filter P :=
      filter_removeFirstBy P _ E (fun e he => htouch e he)
    have h2 : P (ldScript id txt) = false := htouch _ (byId_ldScript id txt)
    simp [h1, List.filter_cons, h2]

theorem filter_execE (P : Elem → Bool) (l : List Op)
    (hgood : ∀ op ∈ l, GoodOp op)
    (hval : ∀ e v, P (e.setAttr "content" v) = P e ∧ P (e.setAttr "href" v) = P e)
    (htouch : ∀ op ∈ l, ∀ e, opTouches op e = true → P e = false)
    (E : List Elem) :
    (execE l E).filter P = E.filter P := by
  induction l generalizing E with
  | nil => rfl
  | cons op t ih =>
    rw [execE_cons, ih (fun x hx => hgood x (by simp [hx]))
      (fun x hx e => htouch x (by simp [hx]) e)]
    exact filter_applyOpE P op (hgood op (by simp)) hval (htouch op (by simp)) E

theorem countP_applyOpE_le (P : Elem → Bool) (op : Op) (hgood : GoodOp op)
    (hval : ∀ e v, P (e.setAttr "content" v) = P e ∧ P (e.setAttr "href" v) = P e)
    (hnew : ∀ e ∈ opNew op, P e = false) (E : List Elem) :
    (applyOpE op E).countP P ≤ E.countP P := by
  cases op with
  | otitle v => exact Nat.le_refl _
  | oupsert tag attr key va val =>
    obtain ⟨hva, hne⟩ := goodOp_upsert_facts hgood
    have hv : ∀ e v', P (e.setAttr va v') = P e := by
      intro e v'
      rcases hva with rfl | rfl
      · exact (hval e v').1
      · exact (hval e v').2
    cases hf : E.findIdx? (selPred tag attr key) with
    | some i =>
      simp only [applyOpE, hf]
      rw [countP_writeAt _ _ _ _ _ (fun e => hv e val)]
    | none =>
      simp only [applyOpE, hf]
      have hPn : P (newUpsertElem tag attr key va val) = false :=
        hnew _ (by simp [opNew])
      simp [List.countP_append, List.countP_cons, hPn]
  | ocharset v =>
    simp only [applyOpE]
    by_cases ha : E.any charsetSel = true
    · rw [if_pos ha]
    · rw [if_neg ha, List.countP_cons]
      have hPc : P (charsetElem v) = false := hnew _ (by simp [opNew])
      simp [hPc]
  | oreplace id txt =>
    simp only [applyOpE]
    have h2 : P (ldScript id txt) = false := hnew _ (by simp [opNew])
    calc (removeFirstBy (byId id) E ++ [ldScript id txt]).countP P
        = (removeFirstBy (byId id) E).countP P := by
          simp [List.countP_append, List.countP_cons, h2]
      _ ≤ E.countP P := countP_removeFirstBy_le P _ E

theorem mem_ite_nil_elim {α : Type} {c : Prop} [Decidable c] {a : α} {l : List α}
    (h : a ∈ (if c then l else [])) : a ∈ l := by
  by_cases hc : c
  · simpa [hc] using h
  · simp [hc] at h

theorem good_upsertName (k v : String) : GoodOp (upsertName k v) ∧ UpOp (upsertName k v) :=
  ⟨Or.inl ⟨rfl, Or.inl rfl, rfl⟩, trivial⟩

theorem good_upsertProp (k v : String) : GoodOp (upsertProp k v) ∧ UpOp (upsertProp k v) :=
  ⟨Or.inl ⟨rfl, Or.inr (Or.inl rfl), rfl⟩, trivial⟩

theorem good_upsertHttp (k v : String) : GoodOp (upsertHttp k v) ∧ UpOp (upsertHttp k v) :=
  ⟨Or.inl ⟨rfl, Or.inr (Or.inr rfl), rfl⟩, trivial⟩

theorem good_upsertCanonical (u : String) :
    GoodOp (upsertCanonical u) ∧ UpOp (upsertCanonical u) :=
  ⟨Or.inr ⟨rfl, rfl, rfl⟩, trivial⟩

theorem good_otitle (v : String) : GoodOp (.otitle v) ∧ UpOp (.otitle v) :=
  ⟨trivial, trivial⟩

theorem good_ocharset (v : String) : GoodOp (.ocharset v) ∧ UpOp (.ocharset v) :=
  ⟨trivial, trivial⟩

theorem ogExtraOp_good (kv : String × Option String) :
    ∀ op ∈ ogExtraOp kv, GoodOp op ∧ UpOp op := by
  intro op hop
  unfold ogExtraOp at hop
  repeat' split at hop
  all_goals first
    | exact absurd hop (List.not_mem_nil op)
    | (rw [List.mem_singleton] at hop
       subst hop
       exact good_upsertProp _ _)

theorem twExtraOp_good (kv : String × Option String) :
    ∀ op ∈ twExtraOp kv, GoodOp op ∧ UpOp op := by
  intro op hop
  unfold twExtraOp at hop
  repeat' split at hop
  all_goals first
    | exact absurd hop (List.not_mem_nil op)
    | (rw [List.mem_singleton] at hop
       subst hop
       exact good_upsertName _ _)

theorem ogOps_good (og : OpenGraphMeta) : ∀ op ∈ ogOps og, GoodOp op ∧ UpOp op := by
  intro op hop
  unfold ogOps at hop
  simp only [List.mem_append] at hop
  repeat' rcases hop with hop | hop
  all_goals first
    | (rw [List.mem_flatMap] at hop
       obtain ⟨kv, hkv, h2⟩ := hop
       exact ogExtraOp_good kv op h2)
    | (have h1 := mem_ite_nil_elim hop
       rw [List.mem_singleton] at h1
       subst h1
       exact good_upsertProp _ _)

theorem twOps_good (tw : TwitterCardMeta) : ∀ op ∈ twOps tw, GoodOp op ∧ UpOp op := by
  intro op hop
  unfold twOps at hop
  simp only [List.mem_append] at hop
  repeat' rcases hop with hop | hop
  all_goals first
    | (rw [List.mem_flatMap] at hop
       obtain ⟨kv, hkv, h2⟩ := hop
       exact twExtraOp_good kv op h2)
    | (have h1 := mem_ite_nil_elim hop
       rw [List.mem_singleton] at h1
       subst h1
       exact good_upsertName _ _)

theorem customEntryOps_good (m : CustomMeta) :
    ∀ op ∈ customEntryOps m, GoodOp op ∧ UpOp op := by
  intro op hop
  unfold customEntryOps at hop
  repeat' split at hop
  all_goals first
    | exact absurd hop (List.not_mem_nil op)
    | (rw [List.mem_singleton] at hop
       subst hop
       first
         | exact good_upsertName _ _
         | exact good_upsertProp _ _
         | exact good_upsertHttp _ _
         | exact good_ocharset _)

theorem customOps_good (l : List CustomMeta) : ∀ op ∈ customOps l, GoodOp op ∧ UpOp op := by
  intro op hop
  unfold customOps at hop
  rw [List.mem_flatMap] at hop
  obtain ⟨m, hm, h2⟩ := hop
  exact customEntryOps_good m op h2

theorem forall_mem_append_op {Q : Op → Prop} {l1 l2 : List Op}
    (h1 : ∀ x ∈ l1, Q x) (h2 : ∀ x ∈ l2, Q x) : ∀ x ∈ l1 ++ l2, Q x := by
  intro x hx
  rcases List.mem_append.mp hx with h | h
  · exact h1 x h
  · exact h2 x h

theorem forall_ite_list {Q : Op → Prop} {c : Prop} [Decidable c] {l : List Op}
    (h : ∀ y ∈ l, Q y) : ∀ y ∈ (if c then l else []), Q y :=
  fun y hy => h y (mem_ite_nil_elim hy)

theorem forall_singleton {Q : Op → Prop} {x : Op} (h : Q x) : ∀ y ∈ [x], Q y := by
  intro y hy
  rw [List.mem_singleton] at hy
  subst hy
  exact h

theorem forall_pair {Q : Op → Prop} {a b : Op} (ha : Q a) (hb : Q b) : ∀ y ∈ [a, b], Q y := by
  intro y hy
  rcases List.mem_cons.mp hy with rfl | hy
  · exact ha
  · rw [List.mem_singleton] at hy
    subst hy
    exact hb

theorem customStageOps_good (p : SeoProps) :
    ∀ op ∈ (match p.customMeta with
            | some l => customOps l
            | none => ([] : List Op)), GoodOp op ∧ UpOp op := by
  cases hc : p.customMeta with
  | none => exact fun op hop => absurd hop (List.not_mem_nil op)
  | some lc => exact customOps_good lc

theorem opsMain_good (p : SeoProps) : ∀ op ∈ opsMain p, GoodOp op ∧ UpOp op := by
  unfold opsMain
  exact forall_mem_append_op (forall_mem_append_op (forall_mem_append_op (forall_mem_append_op (forall_mem_append_op (forall_mem_append_op (forall_mem_append_op (forall_mem_append_op (forall_mem_append_op (forall_mem_append_op (forall_mem_append_op (forall_mem_append_op (forall_mem_append_op (forall_mem_append_op (forall_mem_append_op (forall_mem_append_op (forall_mem_append_op (forall_mem_append_op (forall_mem_append_op (forall_mem_append_op (forall_mem_append_op (forall_mem_append_op (forall_mem_append_op (forall_mem_append_op (forall_ite_list (forall_singleton (good_otitle _))) (forall_ite_list (forall_singleton (good_upsertName _ _)))) (forall_ite_list (forall_singleton (good_upsertName _ _)))) (forall_ite_list (forall_singleton (good_upsertName _ _)))) (forall_ite_list (forall_singleton (good_upsertName _ _)))) (forall_ite_list (forall_pair (good_upsertName _ _) (good_upsertName _ _)))) (forall_ite_list (forall_singleton (good_upsertName _ _)))) (forall_ite_list (forall_singleton (good_upsertName _ _)))) (forall_ite_list (forall_singleton (good_upsertName _ _)))) (forall_ite_list (forall_singleton (good_upsertName _ _)))) (forall_ite_list (forall_singleton (good_upsertName _ _)))) (forall_ite_list (forall_singleton (good_upsertName _ _)))) (forall_ite_list (forall_singleton (good_upsertName _ _)))) (forall_ite_list (forall_singleton (good_upsertName _ _)))) (forall_ite_list (forall_singleton (good_upsertName _ _)))) (forall_ite_list (forall_singleton (good_upsertName _ _)))) (forall_ite_list (forall_singleton (good_upsertName _ _)))) (forall_ite_list (forall_singleton (good_upsertName _ _)))) (forall_ite_list (forall_singleton (good_upsertName _ _)))) (forall_ite_list (forall_singleton (good_upsertName _ _)))) (forall_ite_list (forall_singleton (good_upsertName _ _)))) (forall_ite_list (forall_singleton (good_upsertCanonical _)))) (forall_ite_list (ogOps_good _))) (forall_ite_list (twOps_good _))) (customStageOps_good p)

theorem opsOf_good (p : SeoProps) : ∀ op ∈ opsOf p, GoodOp op := by
  intro op hop
  rw [opsOf, List.mem_append] at hop
  rcases hop with hop | hop
  · exact (opsMain_good p op hop).1
  · unfold jsonLdOps at hop
    cases hj : p.jsonLd with
    | none =>
      rw [hj] at hop
      simp at hop
    | some j =>
      rw [hj] at hop
      rw [List.mem_singleton] at hop
      subst hop
      trivial

theorem getAttr_charsetElem (v a : String) (h : a ≠ "charset") :
    (charsetElem v).getAttr a = none := by
  simp [charsetElem, Elem.getAttr, List.find?, Ne.symm h]

theorem selPred_charsetElem (tg a k v : String) (h : a ≠ "charset") :
    selPred tg a k (charsetElem v) = false := by
  simp [selPred, getAttr_charsetElem v a h]

theorem attrs_ldScript (id txt : String) :
    (ldScript id txt).attrs = [("type", "application/ld+json"), ("id", id)] := by
  simp [ldScript, Elem.setAttr, setPair]

theorem getAttr_ldScript (id txt a : String) (h1 : a ≠ "type") (h2 : a ≠ "id") :
    (ldScript id txt).getAttr a = none := by
  show ((ldScript id txt).attrs.find? (fun p => p.1 = a)).map (fun p => p.2) = none
  rw [attrs_ldScript]
  simp [List.find?, Ne.symm h1, Ne.symm h2]

theorem selPred_ldScript (tg a k id txt : String) (h1 : a ≠ "type") (h2 : a ≠ "id") :
    selPred tg a k (ldScript id txt) = false := by
  simp [selPred, getAttr_ldScript id txt a h1 h2]

theorem getAttr_newUpsertElem (tag attr key va val a : String) (h2 : a ≠ va) :
    (newUpsertElem tag attr key va val).getAttr a =
      if attr = a then some key else none := by
  have h3 := getAttr_setAttr_ne ⟨tag, [(attr, key)], ""⟩ a va val h2
  rw [newUpsertElem, h3]
  by_cases h4 : attr = a
  · simp [Elem.getAttr, List.find?, h4]
  · simp [Elem.getAttr, List.find?, h4]

theorem tag_newUpsertElem (tag attr key va val : String) :
    (newUpsertElem tag attr key va val).tag = tag := rfl

theorem selPred_newUpsertElem_other (tg a k tag attr key va val : String)
    (h2 : a ≠ va) (hdiff : ¬(tg = tag ∧ a = attr ∧ k = key)) :
    selPred tg a k (newUpsertElem tag attr key va val) = false := by
  unfold selPred
  rw [tag_newUpsertElem, getAttr_newUpsertElem tag attr key va val a h2]
  by_cases ht : tag = tg
  · by_cases hattr : attr = a
    · have hk : ¬k = key := by
        intro hk
        exact hdiff ⟨ht.symm, hattr.symm, hk⟩
      simp [hattr, ht, hk]
      intro hkk
      exact hk hkk.symm
    · simp [hattr]
  · simp [ht]

/-- Each pipeline operation preserves the at-most-one invariant for any
selector over the attribute kinds that selectors use. -/
theorem countP_le_one_applyOpE (tg a k : String) (op : Op) (hgood : GoodOp op)
    (ha : a = "name" ∨ a = "property" ∨ a = "http-equiv" ∨ a = "rel")
    (E : List Elem) (hE : E.countP (selPred tg a k) ≤ 1) :
    (applyOpE op E).countP (selPred tg a k) ≤ 1 := by
  have hvc : ∀ e v, selPred tg a k (e.setAttr "content" v) = selPred tg a k e := by
    intro e v
    apply selPred_setAttr
    rcases ha with rfl | rfl | rfl | rfl <;> decide
  have hvh : ∀ e v, selPred tg a k (e.setAttr "href" v) = selPred tg a k e := by
    intro e v
    apply selPred_setAttr
    rcases ha with rfl | rfl | rfl | rfl <;> decide
  cases op with
  | otitle v => exact hE
  | ocharset v =>
    simp only [applyOpE]
    by_cases hany : E.any charsetSel = true
    · rw [if_pos hany]
      exact hE
    · rw [if_neg hany, List.countP_cons]
      have hch : selPred tg a k (charsetElem v) = false := by
        apply selPred_charsetElem
        rcases ha with rfl | rfl | rfl | rfl <;> decide
      simp [hch]
      exact hE
  | oreplace id txt =>
    simp only [applyOpE]
    have hld : selPred tg a k (ldScript id txt) = false := by
      apply selPred_ldScript <;> (rcases ha with rfl | rfl | rfl | rfl <;> decide)
    rw [List.countP_append]
    have : (removeFirstBy (byId id) E).countP (selPred tg a k) ≤ 1 :=
      Nat.le_trans (countP_removeFirstBy_le _ _ E) hE
    simpa [List.countP_cons, hld] using this
  | oupsert tag attr key va val =>
    obtain ⟨hva, hne⟩ := goodOp_upsert_facts hgood
    have hv : ∀ e v', selPred tg a k (e.setAttr va v') = selPred tg a k e := by
      intro e v'
      rcases hva with rfl | rfl
      · exact hvc e v'
      · exact hvh e v'
    cases hf : E.findIdx? (selPred tag attr key) with
    | some i =>
      simp only [applyOpE, hf]
      rw [countP_writeAt _ _ _ _ _ (fun e => hv e val)]
      exact hE
    | none =>
      simp only [applyOpE, hf]
      rw [List.countP_append]
      by_cases hsame : tg = tag ∧ a = attr ∧ k = key
      · obtain ⟨rfl, rfl, rfl⟩ := hsame
        have hzero : E.countP (selPred tg a k) = 0 := by
          rw [List.countP_eq_zero]
          intro e he
          have := (findIdx?_none_iff _ E).mp hf e he
          simp [this]
        rw [hzero]
        have : selPred tg a k (newUpsertElem tg a k va val) = true :=
          selPred_newUpsertElem tg a k va val hne
        simp [List.countP_cons, this]
      · have hnew : selPred tg a k (newUpsertElem tag attr key va val) = false := by
          apply selPred_newUpsertElem_other
          · rcases hva with rfl | rfl <;> (rcases ha with rfl | rfl | rfl | rfl <;> decide)
          · exact hsame
        simp [List.countP_cons, hnew]
        exact hE

theorem countP_le_one_execE (tg a k : String) (l : List Op)
    (hgood : ∀ op ∈ l, GoodOp op)
    (ha : a = "name" ∨ a = "property" ∨ a = "http-equiv" ∨ a = "rel")
    (E : List Elem) (hE : E.countP (selPred tg a k) ≤ 1) :
    (execE l E).countP (selPred tg a k) ≤ 1 := by
  induction l generalizing E with
  | nil => exact hE
  | cons op t ih =>
    rw [execE_cons]
    exact ih (fun x hx => hgood x (by simp [hx])) _
      (countP_le_one_applyOpE tg a k op (hgood op (by simp)) ha E hE)

/-- Whether some operation of the reconciliation of p targets e: e is
matched by a selector the record writes, or (when a JSON-LD payload is
present) e bears the marker id. -/
def touchedBy (p : SeoProps) (e : Elem) : Bool :=
  (opsOf p).any (fun op => opTouches op e)

theorem any_congr_mem {l : List Op} {f g : Op → Bool}
    (h : ∀ op ∈ l, f op = g op) : l.any f = l.any g := by
  induction l with
  | nil => rfl
  | cons x t ih =>
    simp only [List.any_cons, h x (by simp)]
    rw [ih (fun y hy => h y (by simp [hy]))]

theorem opTouches_setAttr (op : Op) (hg : GoodOp op) (e : Elem) (a v : String)
    (ha : a = "content" ∨ a = "href") :
    opTouches op (e.setAttr a v) = opTouches op e := by
  cases op with
  | otitle w => rfl
  | oupsert tag attr key va val =>
    show selPred tag attr key _ = selPred tag attr key e
    apply selPred_setAttr
    rcases hg with ⟨-, hattr, -⟩ | ⟨-, rfl, -⟩
    · rcases hattr with rfl | rfl | rfl <;> rcases ha with rfl | rfl <;> decide
    · rcases ha with rfl | rfl <;> decide
  | ocharset w =>
    exact charsetSel_setAttr e a v (by rcases ha with rfl | rfl <;> decide)
  | oreplace id txt =>
    exact byId_setAttr id e a v (by rcases ha with rfl | rfl <;> decide)

theorem touchedBy_setAttr (p : SeoProps) (e : Elem) (a v : String)
    (ha : a = "content" ∨ a = "href") :
    touchedBy p (e.setAttr a v) = touchedBy p e := by
  unfold touchedBy
  exact any_congr_mem (fun op hop => opTouches_setAttr op (opsOf_good p op hop) e a v ha)

theorem execT_of_no_title (l : List Op) (h : ∀ v, Op.otitle v ∉ l) (t : String) :
    execT l t = t := by
  induction l generalizing t with
  | nil => rfl
  | cons op u ih =>
    have h2 : ∀ v, Op.otitle v ∉ u := fun v hv => h v (by simp [hv])
    cases op with
    | otitle v => exact absurd (by simp) (h v)
    | oupsert tag attr key va val => exact ih h2 t
    | ocharset v => exact ih h2 t
    | oreplace id txt => exact ih h2 t

theorem forall_ite_of_neg {Q : Op → Prop} {c : Prop} [Decidable c] {l : List Op}
    (hc : ¬c) : ∀ y ∈ (if c then l else []), Q y := by
  intro y hy
  rw [if_neg hc] at hy
  exact absurd hy (List.not_mem_nil y)

/-- Shape of the operations of the og:* stage. -/
theorem ogOps_shape (og : OpenGraphMeta) :
    ∀ op ∈ ogOps og, ∃ k v, op = upsertProp k v := by
  intro op hop
  unfold ogOps at hop
  simp only [List.mem_append] at hop
  repeat' rcases hop with hop | hop
  all_goals first
    | (rw [List.mem_flatMap] at hop
       obtain ⟨kv, hkv, h2⟩ := hop
       unfold ogExtraOp at h2
       repeat' split at h2
       all_goals first
         | exact absurd h2 (List.not_mem_nil op)
         | (rw [List.mem_singleton] at h2
            subst h2
            exact ⟨_, _, rfl⟩))
    | (have h1 := mem_ite_nil_elim hop
       rw [List.mem_singleton] at h1
       subst h1
       exact ⟨_, _, rfl⟩)

/-- Shape of one entry of the twitter:* extras loop. -/
theorem twExtraOp_shape (kv : String × Option String) :
    ∀ op ∈ twExtraOp kv, ∃ k v, op = upsertName k v ∧ strStartsWith k "twitter:" = true := by
  intro op h2
  unfold twExtraOp at h2
  by_cases hg : (strStartsWith kv.1 "twitter:" && !(twitterExcluded.contains kv.1)) = true
  · rw [if_pos hg] at h2
    cases hkv2 : kv.2 with
    | none =>
      rw [hkv2] at h2
      exact absurd h2 (List.not_mem_nil op)
    | some v =>
      rw [hkv2] at h2
      by_cases hv : v = ""
      · simp [hv] at h2
      · simp [hv] at h2
        subst h2
        have hg1 := (Bool.and_eq_true _ _).mp hg
        exact ⟨kv.1, v, rfl, hg1.1⟩
  · rw [if_neg hg] at h2
    exact absurd h2 (List.not_mem_nil op)

/-- Shape of the operations of the twitter:* stage: name upserts whose
key starts with the twitter: prefix. -/
theorem twOps_shape (tw : TwitterCardMeta) :
    ∀ op ∈ twOps tw, ∃ k v, op = upsertName k v ∧ strStartsWith k "twitter:" = true := by
  intro op hop
  unfold twOps at hop
  simp only [List.mem_append] at hop
  repeat' rcases hop with hop | hop
  all_goals first
    | (rw [List.mem_flatMap] at hop
       obtain ⟨kv, hkv, h2⟩ := hop
       exact twExtraOp_shape kv op h2)
    | (have h1 := mem_ite_nil_elim hop
       rw [List.mem_singleton] at h1
       subst h1
       exact ⟨_, _, rfl, by decide⟩)

theorem customEntryOps_not_title (m : CustomMeta) :
    ∀ op ∈ customEntryOps m, ∀ w, op ≠ Op.otitle w := by
  intro op hop
  unfold customEntryOps at hop
  repeat' split at hop
  all_goals first
    | exact absurd hop (List.not_mem_nil op)
    | (rw [List.mem_singleton] at hop
       subst hop
       exact fun w h => Op.noConfusion h)

theorem customStageOps_not_title (p : SeoProps) :
    ∀ op ∈ (match p.customMeta with
            | some l => customOps l
            | none => ([] : List Op)), ∀ w, op ≠ Op.otitle w := by
  cases hc : p.customMeta with
  | none => exact fun op hop => absurd hop (List.not_mem_nil op)
  | some lc =>
    intro op hop
    unfold customOps at hop
    rw [List.mem_flatMap] at hop
    obtain ⟨m, hm, h2⟩ := hop
    exact customEntryOps_not_title m op h2

theorem opsMain_not_title (p : SeoProps) (hp : isTruthy p.title = false) :
    ∀ op ∈ opsMain p, ∀ w, op ≠ Op.otitle w := by
  unfold opsMain
  exact forall_mem_append_op (forall_mem_append_op (forall_mem_append_op (forall_mem_append_op (forall_mem_append_op (forall_mem_append_op (forall_mem_append_op (forall_mem_append_op (forall_mem_append_op (forall_mem_append_op (forall_mem_append_op (forall_mem_append_op (forall_mem_append_op (forall_mem_append_op (forall_mem_append_op (forall_mem_append_op (forall_mem_append_op (forall_mem_append_op (forall_mem_append_op (forall_mem_append_op (forall_mem_append_op (forall_mem_append_op (forall_mem_append_op (forall_mem_append_op (forall_ite_of_neg (by simp [hp]))
    (forall_ite_list (forall_singleton (fun w h => Op.noConfusion h))))
    (forall_ite_list (forall_singleton (fun w h => Op.noConfusion h))))
    (forall_ite_list (forall_singleton (fun w h => Op.noConfusion h))))
    (forall_ite_list (forall_singleton (fun w h => Op.noConfusion h))))
    (forall_ite_list (forall_pair (fun w h => Op.noConfusion h) (fun w h => Op.noConfusion h))))
    (forall_ite_list (forall_singleton (fun w h => Op.noConfusion h))))
    (forall_ite_list (forall_singleton (fun w h => Op.noConfusion h))))
    (forall_ite_list (forall_singleton (fun w h => Op.noConfusion h))))
    (forall_ite_list (forall_singleton (fun w h => Op.noConfusion h))))
    (forall_ite_list (forall_singleton (fun w h => Op.noConfusion h))))
    (forall_ite_list (forall_singleton (fun w h => Op.noConfusion h))))
    (forall_ite_list (forall_singleton (fun w h => Op.noConfusion h))))
    (forall_ite_list (forall_singleton (fun w h => Op.noConfusion h))))
    (forall_ite_list (forall_singleton (fun w h => Op.noConfusion h))))
    (forall_ite_list (forall_singleton (fun w h => Op.noConfusion h))))
    (forall_ite_list (forall_singleton (fun w h => Op.noConfusion h))))
    (forall_ite_list (forall_singleton (fun w h => Op.noConfusion h))))
    (forall_ite_list (forall_singleton (fun w h => Op.noConfusion h))))
    (forall_ite_list (forall_singleton (fun w h => Op.noConfusion h))))
    (forall_ite_list (forall_singleton (fun w h => Op.noConfusion h))))
    (forall_ite_list (forall_singleton (fun w h => Op.noConfusion h))))
    (forall_ite_list (fun op hop => by
      obtain ⟨k, w, rfl⟩ := ogOps_shape _ op hop
      exact fun w2 h => Op.noConfusion h)))
    (forall_ite_list (fun op hop => by
      obtain ⟨k, w, rfl, -⟩ := twOps_shape _ op hop
      exact fun w2 h => Op.noConfusion h)))
    (customStageOps_not_title p)

theorem opsOf_not_title (p : SeoProps) (hp : isTruthy p.title = false) :
    ∀ op ∈ opsOf p, ∀ w, op ≠ Op.otitle w := by
  rw [opsOf]
  apply forall_mem_append_op (opsMain_not_title p hp)
  intro op hop
  unfold jsonLdOps at hop
  cases hj : p.jsonLd with
  | none =>
    rw [hj] at hop
    exact absurd hop (List.not_mem_nil op)
  | some j =>
    rw [hj, List.mem_singleton] at hop
    subst hop
    exact fun w h => Op.noConfusion h

theorem countP_execE_le (P : Elem → Bool) (l : List Op)
    (hgood : ∀ op ∈ l, GoodOp op)
    (hval : ∀ e v, P (e.setAttr "content" v) = P e ∧ P (e.setAttr "href" v) = P e)
    (hnew : ∀ op ∈ l, ∀ e ∈ opNew op, P e = false)
    (E : List Elem) :
    (execE l E).countP P ≤ E.countP P := by
  induction l generalizing E with
  | nil => exact Nat.le_refl _
  | cons op t ih =>
    rw [execE_cons]
    calc (execE t (applyOpE op E)).countP P
        ≤ (applyOpE op E).countP P :=
          ih (fun x hx => hgood x (by simp [hx])) (fun x hx => hnew x (by simp [hx])) _
      _ ≤ E.countP P :=
          countP_applyOpE_le P op (hgood op (by simp)) hval (hnew op (by simp)) E
/-- The no-duplication invariant: at most one head element per
meta-name, meta-property and meta-http-equiv selector value, and at
most one canonical link. -/
def SelInv (E : List Elem) : Prop :=
  (∀ a v, (a = "name" ∨ a = "property" ∨ a = "http-equiv") →
      E.countP (selPred "meta" a v) ≤ 1) ∧
  E.countP (selPred "link" "rel" "canonical") ≤ 1

theorem selInv_updateSeo (p : SeoProps) (d : Doc) (hd : SelInv d.elems) :
    SelInv (updateSeo p d).elems := by
  constructor
  · intro a v ha
    rw [updateSeo_ops, execOps_elems]
    refine countP_le_one_execE "meta" a v (opsOf p) (opsOf_good p) ?_ d.elems (hd.1 a v ha)
    rcases ha with h | h | h
    · exact Or.inl h
    · exact Or.inr (Or.inl h)
    · exact Or.inr (Or.inr (Or.inl h))
  · rw [updateSeo_ops, execOps_elems]
    exact countP_le_one_execE "link" "rel" "canonical" (opsOf p) (opsOf_good p)
      (Or.inr (Or.inr (Or.inr rfl))) d.elems hd.2

theorem opsMain_no_kw (p : SeoProps) (hk : p.keywords = none)
    (hc : p.customMeta = none) :
    ∀ op ∈ opsMain p, ∀ tg va w, op ≠ Op.oupsert tg "name" "keywords" va w := by
  unfold opsMain
  exact forall_mem_append_op (forall_mem_append_op (forall_mem_append_op (forall_mem_append_op (forall_mem_append_op (forall_mem_append_op (forall_mem_append_op (forall_mem_append_op (forall_mem_append_op (forall_mem_append_op (forall_mem_append_op (forall_mem_append_op (forall_mem_append_op (forall_mem_append_op (forall_mem_append_op (forall_mem_append_op (forall_mem_append_op (forall_mem_append_op (forall_mem_append_op (forall_mem_append_op (forall_mem_append_op (forall_mem_append_op (forall_mem_append_op (forall_mem_append_op (forall_ite_list (forall_singleton (fun tg va w h => Op.noConfusion h)))
    (forall_ite_list (forall_singleton (by
      intro tg va w h
      injection h with h1 h2 h3 h4 h5
      exact absurd h3 (by decide)))))
    (forall_ite_of_neg (by rw [hk]; simp [formatKeywords])))
    (forall_ite_list (forall_singleton (by
      intro tg va w h
      injection h with h1 h2 h3 h4 h5
      exact absurd h3 (by decide)))))
    (forall_ite_list (forall_singleton (by
      intro tg va w h
      injection h with h1 h2 h3 h4 h5
      exact absurd h3 (by decide)))))
    (forall_ite_list (forall_pair (by
      intro tg va w h
      injection h with h1 h2 h3 h4 h5
      exact absurd h3 (by decide)) (by
      intro tg va w h
      injection h with h1 h2 h3 h4 h5
      exact absurd h3 (by decide)))))
    (forall_ite_list (forall_singleton (by
      intro tg va w h
      injection h with h1 h2 h3 h4 h5
      exact absurd h3 (by decide)))))
    (forall_ite_list (forall_singleton (by
      intro tg va w h
      injection h with h1 h2 h3 h4 h5
      exact absurd h3 (by decide)))))
    (forall_ite_list (forall_singleton (by
      intro tg va w h
      injection h with h1 h2 h3 h4 h5
      exact absurd h3 (by decide)))))
    (forall_ite_list (forall_singleton (by
      intro tg va w h
      injection h with h1 h2 h3 h4 h5
      exact absurd h3 (by decide)))))
    (forall_ite_list (forall_singleton (by
      intro tg va w h
      injection h with h1 h2 h3 h4 h5
      exact absurd h3 (by decide)))))
    (forall_ite_list (forall_singleton (by
      intro tg va w h
      injection h with h1 h2 h3 h4 h5
      exact absurd h3 (by decide)))))
    (forall_ite_list (forall_singleton (by
      intro tg va w h
      injection h with h1 h2 h3 h4 h5
      exact absurd h3 (by decide)))))
    (forall_ite_list (forall_singleton (by
      intro tg va w h
      injection h with h1 h2 h3 h4 h5
      exact absurd h3 (by decide)))))
    (forall_ite_list (forall_singleton (by
      intro tg va w h
      injection h with h1 h2 h3 h4 h5
      exact absurd h3 (by decide)))))
    (forall_ite_list (forall_singleton (by
      intro tg va w h
      injection h with h1 h2 h3 h4 h5
      exact absurd h3 (by decide)))))
    (forall_ite_list (forall_singleton (by
      intro tg va w h
      injection h with h1 h2 h3 h4 h5
      exact absurd h3 (by decide)))))
    (forall_ite_list (forall_singleton (by
      intro tg va w h
      injection h with h1 h2 h3 h4 h5
      exact absurd h3 (by decide)))))
    (forall_ite_list (forall_singleton (by
      intro tg va w h
      injection h with h1 h2 h3 h4 h5
      exact absurd h3 (by decide)))))
    (forall_ite_list (forall_singleton (by
      intro tg va w h
      injection h with h1 h2 h3 h4 h5
      exact absurd h3 (by decide)))))
    (forall_ite_list (forall_singleton (by
      intro tg va w h
      injection h with h1 h2 h3 h4 h5
      exact absurd h3 (by decide)))))
    (forall_ite_list (forall_singleton (by
      intro tg va w h
      injection h with h1 h2 h3 h4 h5
      exact absurd h2 (by decide)))))
    (forall_ite_list (fun op hop => by
      obtain ⟨k2, w2, rfl⟩ := ogOps_shape _ op hop
      intro tg va w h
      rw [upsertProp] at h
      injection h with h1 h2 h3 h4 h5
      exact absurd h2 (by decide))))
    (forall_ite_list (fun op hop => by
      obtain ⟨k2, w2, rfl, hks⟩ := twOps_shape _ op hop
      intro tg va w h
      rw [upsertName] at h
      injection h with h1 h2 h3 h4 h5
      rw [h3] at hks
      exact absurd hks (by decide))))
    ((by
      rw [hc]
      exact fun op hop => absurd hop (List.not_mem_nil op)))

theorem opsOf_no_kw (p : SeoProps) (hk : p.keywords = none) (hc : p.customMeta = none) :
    ∀ op ∈ opsOf p, ∀ tg va w, op ≠ Op.oupsert tg "name" "keywords" va w := by
  rw [opsOf]
  apply forall_mem_append_op (opsMain_no_kw p hk hc)
  intro op hop
  unfold jsonLdOps at hop
  cases hj : p.jsonLd with
  | none =>
    rw [hj] at hop
    exact absurd hop (List.not_mem_nil op)
  | some j =>
    rw [hj, List.mem_singleton] at hop
    subst hop
    exact fun tg va w h => Op.noConfusion h

theorem byId_newUpsertElem (id tag attr key va val : String)
    (hattr : attr ≠ "id") (hva : va ≠ "id") :
    byId id (newUpsertElem tag attr key va val) = false := by
  have h := getAttr_newUpsertElem tag attr key va val "id" (Ne.symm hva)
  rw [if_neg hattr] at h
  simp [byId, h]

theorem mkOgData_title (p : SeoProps) :
    (mkOgData p).title =
      if isTruthy (jsOr p.ogTitle p.title) then jsOr p.ogTitle p.title
      else (p.openGraph.getD {}).title := by
  unfold mkOgData
  simp only [apply_ite OpenGraphMeta.title, ite_self]

theorem mkTwitterData_title (p : SeoProps) :
    (mkTwitterData p).title =
      if isTruthy (jsOr p.twitterTitle p.title) then jsOr p.twitterTitle p.title
      else (p.twitter.getD {}).title := by
  unfold mkTwitterData
  simp only [apply_ite TwitterCardMeta.title, ite_self]

theorem mkTwitterData_image (p : SeoProps) :
    (mkTwitterData p).image =
      if isTruthy (jsOr p.twitterImage p.ogImage) then jsOr p.twitterImage p.ogImage
      else (p.twitter.getD {}).image := by
  unfold mkTwitterData
  simp only [apply_ite TwitterCardMeta.image, ite_self]

theorem countP_removeFirstBy_eq_zero (q : Elem → Bool) (E : List Elem)
    (h : E.countP q ≤ 1) : (removeFirstBy q E).countP q = 0 := by
  induction E with
  | nil => rfl
  | cons e t ih =>
    by_cases hq : q e = true
    · rw [removeFirstBy, if_pos hq]
      rw [List.countP_cons] at h
      have h1 : (if q e = true then 1 else 0) = 1 := by simp [hq]
      rw [h1] at h
      omega
    · rw [removeFirstBy, if_neg hq]
      rw [List.countP_cons] at h ⊢
      have h1 : (if q e = true then 1 else 0) = 0 := by simp [hq]
      rw [h1, Nat.add_zero] at h ⊢
      exact ih h

theorem charsetSel_ldScript (id txt : String) : charsetSel (ldScript id txt) = false := by
  have h : (ldScript id txt).tag = "script" := rfl
  simp [charsetSel, h]

theorem charsetSel_newUpsertElem (tag attr key va val : String)
    (h1 : attr ≠ "charset") (h2 : va ≠ "charset") :
    charsetSel (newUpsertElem tag attr key va val) = false := by
  have h := getAttr_newUpsertElem tag attr key va val "charset" (Ne.symm h2)
  rw [if_neg h1] at h
  simp [charsetSel, h]

theorem countP_charset_le_one_applyOpE (op : Op) (hg : GoodOp op) (E : List Elem)
    (hE : E.countP charsetSel ≤ 1) : (applyOpE op E).countP charsetSel ≤ 1 := by
  cases op with
  | otitle v => exact hE
  | oupsert tag attr key va val =>
    obtain ⟨hva, hne⟩ := goodOp_upsert_facts hg
    have hv : ∀ e v', charsetSel (e.setAttr va v') = charsetSel e := by
      intro e v'
      apply charsetSel_setAttr
      rcases hva with rfl | rfl <;> decide
    cases hf : E.findIdx? (selPred tag attr key) with
    | some i =>
      simp only [applyOpE, hf]
      rw [countP_writeAt _ _ _ _ _ (fun e => hv e val)]
      exact hE
    | none =>
      simp only [applyOpE, hf]
      have hnew : charsetSel (newUpsertElem tag attr key va val) = false := by
        apply charsetSel_newUpsertElem
        · rcases hg with ⟨-, hattr, -⟩ | ⟨-, hrel, -⟩
          · rcases hattr with rfl | rfl | rfl <;> decide
          · rw [hrel]
            decide
        · rcases hva with rfl | rfl <;> decide
      simpa [List.countP_append, List.countP_cons, hnew] using hE
  | ocharset v =>
    simp only [applyOpE]
    by_cases ha : E.any charsetSel = true
    · rw [if_pos ha]
      exact hE
    · rw [if_neg ha, List.countP_cons]
      rw [Bool.not_eq_true] at ha
      have hz : E.countP charsetSel = 0 := by
        rw [List.countP_eq_zero]
        intro x hx
        have := List.any_eq_false.mp ha x hx
        simp [this]
      simp [hz, charsetSel_charsetElem]
  | oreplace id txt =>
    simp only [applyOpE]
    rw [List.countP_append]
    have h2 : charsetSel (ldScript id txt) = false := charsetSel_ldScript id txt
    have h3 : (removeFirstBy (byId id) E).countP charsetSel ≤ 1 :=
      Nat.le_trans (countP_removeFirstBy_le _ _ E) hE
    simpa [List.countP_cons, h2] using h3

theorem countP_charset_le_one_execE (l : List Op) (hgood : ∀ op ∈ l, GoodOp op)
    (E : List Elem) (hE : E.countP charsetSel ≤ 1) :
    (execE l E).countP charsetSel ≤ 1 := by
  induction l generalizing E with
  | nil => exact hE
  | cons op t ih =>
    rw [execE_cons]
    exact ih (fun x hx => hgood x (by simp [hx])) _
      (countP_charset_le_one_applyOpE op (hgood op (by simp)) E hE)

theorem countP_charset_le_one_foldl (rs : List SeoProps) (d : Doc)
    (hd : d.elems.countP charsetSel ≤ 1) :
    (rs.foldl (fun d p => updateSeo p d) d).elems.countP charsetSel ≤ 1 := by
  induction rs generalizing d with
  | nil => exact hd
  | cons p t ih =>
    rw [List.foldl_cons]
    apply ih
    rw [updateSeo_ops, execOps_elems]
    exact countP_charset_le_one_execE (opsOf p) (opsOf_good p) d.elems hd

theorem removeFirstBy_eq_filter_of_le_one (q : Elem → Bool) (E : List Elem)
    (h : E.countP q ≤ 1) : removeFirstBy q E = E.filter (fun e => !q e) := by
  induction E with
  | nil => rfl
  | cons e t ih =>
    rw [List.countP_cons] at h
    by_cases hq : q e = true
    · rw [removeFirstBy, if_pos hq, List.filter_cons]
      have h1 : (!q e) = false := by simp [hq]
      rw [h1]
      have h2 : (if q e = true then 1 else 0) = 1 := by simp [hq]
      rw [h2] at h
      have h3 : t.countP q = 0 := by omega
      have h4 : t.filter (fun e => !q e) = t := by
        rw [List.filter_eq_self]
        intro a ha
        have := List.countP_eq_zero.mp h3 a ha
        simp [this]
      simp [h4]
    · rw [removeFirstBy, if_neg hq, List.filter_cons]
      have h1 : (!q e) = true := by simp [hq]
      rw [h1]
      have h2 : (if q e = true then 1 else 0) = 0 := by simp [hq]
      rw [h2, Nat.add_zero] at h
      simp [ih h]

theorem mem_eq_of_countP_le_one (q : Elem → Bool) (E : List Elem) (h : E.countP q ≤ 1)
    (e : Elem) (hfind : E.find? q = some e) :
    ∀ x ∈ E, q x = true → x = e := by
  induction E with
  | nil => simp at hfind
  | cons b t ih =>
    rw [List.countP_cons] at h
    by_cases hq : q b = true
    · rw [List.find?_cons_of_pos _ hq] at hfind
      have hbe : b = e := by injection hfind
      intro x hx hqx
      rcases List.mem_cons.mp hx with rfl | hx
      · exact hbe
      · exfalso
        have h1 : 0 < t.countP q := List.countP_pos_iff.mpr ⟨x, hx, hqx⟩
        have h2 : (if q b = true then 1 else 0) = 1 := by simp [hq]
        rw [h2] at h
        omega
    · rw [List.find?_cons_of_neg _ hq] at hfind
      have h2 : (if q b = true then 1 else 0) = 0 := by simp [hq]
      rw [h2, Nat.add_zero] at h
      intro x hx hqx
      rcases List.mem_cons.mp hx with rfl | hx
      · exact absurd hqx hq
      · exact ih h hfind x hx hqx

theorem removeJsonLd_title (id : String) (d : Doc) :
    (removeJsonLd id d).title = d.title := by
  unfold removeJsonLd
  cases h : d.elems.find? (byId id) with
  | none => rfl
  | some e =>
    dsimp only
    split <;> rfl

theorem byId_opNew (op : Op) (hg : GoodOp op) (hu : UpOp op) :
    ∀ e ∈ opNew op, byId JSON_LD_ID e = false := by
  cases op with
  | otitle v => intro e he; simp [opNew] at he
  | oupsert tag attr key va val =>
    intro e he
    simp [opNew] at he
    subst he
    obtain ⟨hva, -⟩ := goodOp_upsert_facts hg
    apply byId_newUpsertElem
    · rcases hg with ⟨-, hattr, -⟩ | ⟨-, hrel, -⟩
      · rcases hattr with rfl | rfl | rfl <;> decide
      · rw [hrel]; decide
    · rcases hva with rfl | rfl <;> decide
  | ocharset v =>
    intro e he
    simp [opNew] at he
    subst he
    have h := getAttr_charsetElem v "id" (by decide)
    simp [byId, h]
  | oreplace id txt => exact absurd hu (by simp [UpOp])

theorem countP_byId_main_le (p : SeoProps) (E : List Elem) :
    (execE (opsMain p) E).countP (byId JSON_LD_ID) ≤ E.countP (byId JSON_LD_ID) := by
  apply countP_execE_le
  · exact fun op hop => (opsMain_good p op hop).1
  · intro e v
    exact ⟨byId_setAttr _ e _ v (by decide), byId_setAttr _ e _ v (by decide)⟩
  · intro op hop
    exact byId_opNew op (opsMain_good p op hop).1 (opsMain_good p op hop).2

theorem updateSeo_jsonld_some (q : SeoProps) (J : JsonLd) (dd : Doc)
    (hq : q.jsonLd = some J)
    (hdd : dd.elems.countP (byId JSON_LD_ID) ≤ 1) :
    (updateSeo q dd).elems.filter (byId JSON_LD_ID) =
      [ldScript JSON_LD_ID (stringifyJson J)] ∧
    (updateSeo q dd).elems.countP (byId JSON_LD_ID) ≤ 1 := by
  rw [updateSeo_ops, execOps_elems, opsOf, execE_append]
  have hjops : jsonLdOps q = [Op.oreplace JSON_LD_ID (stringifyJson J)] := by
    unfold jsonLdOps
    rw [hq]
  rw [hjops]
  have hZc : (execE (opsMain q) dd.elems).countP (byId JSON_LD_ID) ≤ 1 :=
    Nat.le_trans (countP_byId_main_le q dd.elems) hdd
  rw [execE_cons, execE_nil]
  simp only [applyOpE]
  have h0 := countP_removeFirstBy_eq_zero (byId JSON_LD_ID) (execE (opsMain q) dd.elems) hZc
  constructor
  · rw [List.filter_append]
    have hnil : (removeFirstBy (byId JSON_LD_ID)
        (execE (opsMain q) dd.elems)).filter (byId JSON_LD_ID) = [] := by
      rw [List.filter_eq_nil_iff]
      intro a ha
      have := List.countP_eq_zero.mp h0 a ha
      simp [this]
    rw [hnil]
    simp [byId_ldScript]
  · rw [List.countP_append, h0]
    simp [List.countP_cons, byId_ldScript]

/-
Idempotence machinery.  Operations never read the value attributes
(content, href) they write, so the control flow of a run (selector
matches, charset existence, write targets) depends only on the
"skeleton" of the head (tags and non-value attributes).  This underlies
the idempotence proof: the second run performs no structural change and
replays exactly the writes whose last values already stand.
-/

/-- Operation lists emitted by the pipeline before the JSON-LD stage:
well-shaped upserts that never remove an element. -/
def Benign (l : List Op) : Prop := ∀ op ∈ l, GoodOp op ∧ UpOp op

/-- Title carried by a single operation. -/
def titleOf : Op → Option String
  | .otitle v => some v
  | _ => none

/-- Last title write of an operation list. -/
def lastTitle : List Op → Option String
  | [] => none
  | op :: l => (lastTitle l).or (titleOf op)

theorem execT_eq_lastTitle (l : List Op) (t : String) :
    execT l t = (lastTitle l).getD t := by
  induction l generalizing t with
  | nil => rfl
  | cons op rest ih =>
    show execT rest (applyOpT op t) = _
    rw [ih]
    simp only [lastTitle]
    cases hl : lastTitle rest with
    | some v => rfl
    | none =>
      cases op with
      | otitle v => rfl
      | oupsert a b c d2 e => rfl
      | ocharset v => rfl
      | oreplace a b => rfl

theorem execT_idem (l : List Op) (t : String) :
    execT l (execT l t) = execT l t := by
  rw [execT_eq_lastTitle, execT_eq_lastTitle]
  cases lastTitle l <;> rfl

/-- Attribute list with the value attributes removed. -/
def skelAttrs (l : List (String × String)) : List (String × String) :=
  l.filter (fun q => !(q.1 == "content" || q.1 == "href"))

/-- Skeleton of an element: everything the selectors can see. -/
def skel (e : Elem) : Elem := ⟨e.tag, skelAttrs e.attrs, ""⟩

theorem skelAttrs_setPair (l : List (String × String)) (a v : String)
    (ha : a = "content" ∨ a = "href") :
    skelAttrs (setPair l a v) = skelAttrs l := by
  have hcond : ¬(¬a = "content" ∧ ¬a = "href") := by
    rcases ha with rfl | rfl <;> simp
  induction l with
  | nil => simp [setPair, skelAttrs, hcond]
  | cons q t ih =>
    by_cases hq : q.1 = a
    · simp only [setPair]
      rw [if_pos hq]
      show skelAttrs ((a, v) :: t) = skelAttrs (q :: t)
      simp [skelAttrs, List.filter_cons, hq, hcond]
    · simp only [setPair]
      rw [if_neg hq]
      show skelAttrs (q :: setPair t a v) = skelAttrs (q :: t)
      unfold skelAttrs at ih ⊢
      rw [List.filter_cons, List.filter_cons, ih]

theorem skel_setAttr (e : Elem) (a v : String) (ha : a = "content" ∨ a = "href") :
    skel (e.setAttr a v) = skel e := by
  unfold skel Elem.setAttr
  rw [skelAttrs_setPair _ _ _ ha]

theorem find?_filter_keep {α : Type} (p q : α → Bool) (l : List α)
    (h : ∀ x ∈ l, p x = true → q x = true) :
    (l.filter q).find? p = l.find? p := by
  induction l with
  | nil => rfl
  | cons x t ih =>
    rw [List.filter_cons]
    by_cases hq : q x = true
    · rw [if_pos hq]
      cases hpx : p x with
      | true => rw [List.find?_cons_of_pos _ hpx, List.find?_cons_of_pos _ hpx]
      | false =>
        rw [List.find?_cons_of_neg _ (by simp [hpx]), List.find?_cons_of_neg _ (by simp [hpx])]
        exact ih (fun y hy => h y (List.mem_cons_of_mem x hy))
    · rw [if_neg hq]
      have hpx : p x = false := by
        cases hp2 : p x
        · rfl
        · exact absurd (h x (List.mem_cons_self x t) hp2) hq
      rw [List.find?_cons_of_neg _ (by simp [hpx])]
      exact ih (fun y hy => h y (List.mem_cons_of_mem x hy))

theorem getAttr_skel (e : Elem) (a : String) (h1 : a ≠ "content") (h2 : a ≠ "href") :
    (skel e).getAttr a = e.getAttr a := by
  show ((skelAttrs e.attrs).find? (fun p => p.1 = a)).map (fun p => p.2) =
    (e.attrs.find? (fun p => p.1 = a)).map (fun p => p.2)
  rw [skelAttrs, find?_filter_keep]
  intro x _ hx
  have hxa : x.1 = a := by simpa using hx
  rw [hxa]
  simp [h1, h2]

theorem selPred_skel (tg a k : String) (e : Elem)
    (ha : a = "name" ∨ a = "property" ∨ a = "http-equiv" ∨ a = "rel") :
    selPred tg a k (skel e) = selPred tg a k e := by
  have h1 : a ≠ "content" := by rcases ha with rfl | rfl | rfl | rfl <;> decide
  have h2 : a ≠ "href" := by rcases ha with rfl | rfl | rfl | rfl <;> decide
  unfold selPred
  rw [getAttr_skel e a h1 h2]
  rfl

theorem charsetSel_skel (e : Elem) : charsetSel (skel e) = charsetSel e := by
  unfold charsetSel
  rw [getAttr_skel e "charset" (by decide) (by decide)]
  rfl

theorem map_congr_fn {α β : Type} (f g : α → β) (l : List α)
    (h : ∀ a ∈ l, f a = g a) : l.map f = l.map g := by
  induction l with
  | nil => rfl
  | cons x t ih =>
    rw [List.map_cons, List.map_cons, h x (by simp),
      ih (fun a ha => h a (by simp [ha]))]

theorem map_writeAt {β : Type} (f : Elem → β) (E : List Elem) (i : Nat) (a v : String)
    (h : ∀ e, f (e.setAttr a v) = f e) :
    (writeAt E i a v).map f = E.map f := by
  induction E generalizing i with
  | nil => rfl
  | cons e t ih =>
    cases i with
    | zero =>
      show f (e.setAttr a v) :: t.map f = f e :: t.map f
      rw [h e]
    | succ n =>
      show f e :: (writeAt t n a v).map f = f e :: t.map f
      rw [ih n]

/-- A predicate that only looks at the skeleton agrees on lists with
equal skeletons. -/
theorem map_pred_congr_of_skel (g : Elem → Bool) (hgs : ∀ e, g (skel e) = g e)
    (E F : List Elem) (h : E.map skel = F.map skel) : E.map g = F.map g := by
  have hE : E.map g = (E.map skel).map g := by
    rw [List.map_map]
    exact map_congr_fn _ _ _ (fun e _ => (hgs e).symm)
  rw [hE, h, List.map_map]
  exact map_congr_fn _ _ _ (fun e _ => hgs e)

theorem charset_any_congr (E F : List Elem) (h : E.map skel = F.map skel) :
    E.any charsetSel = F.any charsetSel :=
  any_congr_map _ _ _ (map_pred_congr_of_skel _ charsetSel_skel E F h)

theorem sel_findIdx_congr (tg a k : String)
    (ha : a = "name" ∨ a = "property" ∨ a = "http-equiv" ∨ a = "rel")
    (E F : List Elem) (h : E.map skel = F.map skel) :
    E.findIdx? (selPred tg a k) = F.findIdx? (selPred tg a k) :=
  findIdx?_congr _ _ _
    (map_pred_congr_of_skel _ (fun e => selPred_skel tg a k e ha) E F h)

theorem goodOp_attr_allowed {tag attr key va val : String}
    (hg : GoodOp (.oupsert tag attr key va val)) :
    attr = "name" ∨ attr = "property" ∨ attr = "http-equiv" ∨ attr = "rel" := by
  rcases hg with ⟨-, h2, -⟩ | ⟨-, h2, -⟩
  · rcases h2 with h | h | h
    · exact Or.inl h
    · exact Or.inr (Or.inl h)
    · exact Or.inr (Or.inr (Or.inl h))
  · exact Or.inr (Or.inr (Or.inr h2))

theorem goodOp_va_val {tag attr key va val : String}
    (hg : GoodOp (.oupsert tag attr key va val)) : va = "content" ∨ va = "href" :=
  (goodOp_upsert_facts hg).1

theorem allowed_ne_val {a va : String}
    (ha : a = "name" ∨ a = "property" ∨ a = "http-equiv" ∨ a = "rel")
    (hv : va = "content" ∨ va = "href") : a ≠ va := by
  rcases ha with rfl | rfl | rfl | rfl <;> rcases hv with rfl | rfl <;> decide

/-- Selector of an upsert operation evaluated on an element list. -/
def upsertTarget (op : Op) (E : List Elem) : Option Nat :=
  match op with
  | .oupsert tag attr key _ _ => E.findIdx? (selPred tag attr key)
  | _ => none

/-- Index shift an operation imposes on positions of the current list:
the charset special case prepends an element. -/
def shiftIdx (op : Op) (E : List Elem) (j : Nat) : Nat :=
  match op with
  | .ocharset _ => if E.any charsetSel then j else j + 1
  | _ => j

/-- Position, after running the list, of the element standing at the
given position of E. -/
def trk : List Op → List Elem → Nat → Nat
  | [], _, j => j
  | op :: l, E, j => trk l (applyOpE op E) (shiftIdx op E j)

/-- The run writes the element at the given position of E. -/
def Written : List Op → List Elem → Nat → Prop
  | [], _, _ => False
  | op :: l, E, j =>
      upsertTarget op E = some j ∨ Written l (applyOpE op E) (shiftIdx op E j)

theorem mapSkel_applyOpE (op : Op) (hg : GoodOp op) (hu : UpOp op)
    (E F : List Elem) (h : E.map skel = F.map skel) :
    (applyOpE op E).map skel = (applyOpE op F).map skel := by
  cases op with
  | otitle v => exact h
  | oreplace a b => exact absurd hu (by simp [UpOp])
  | ocharset v =>
    show (if E.any charsetSel then E else charsetElem v :: E).map skel =
      (if F.any charsetSel then F else charsetElem v :: F).map skel
    rw [charset_any_congr E F h]
    by_cases hc : F.any charsetSel = true
    · rw [if_pos hc, if_pos hc]
      exact h
    · rw [if_neg hc, if_neg hc, List.map_cons, List.map_cons, h]
  | oupsert tag attr key va val =>
    have htgt := sel_findIdx_congr tag attr key (goodOp_attr_allowed hg) E F h
    have hskel : ∀ e : Elem, skel (e.setAttr va val) = skel e :=
      fun e => skel_setAttr e va val (goodOp_va_val hg)
    cases hf : F.findIdx? (selPred tag attr key) with
    | some i =>
      have hE : E.findIdx? (selPred tag attr key) = some i := htgt.trans hf
      simp only [applyOpE, hE, hf]
      rw [map_writeAt skel E i va val hskel, map_writeAt skel F i va val hskel]
      exact h
    | none =>
      have hE : E.findIdx? (selPred tag attr key) = none := htgt.trans hf
      simp only [applyOpE, hE, hf]
      rw [List.map_append, List.map_append, h]

theorem shiftIdx_congr (op : Op) (E F : List Elem) (h : E.map skel = F.map skel)
    (j : Nat) : shiftIdx op E j = shiftIdx op F j := by
  cases op with
  | ocharset v =>
    show (if E.any charsetSel then j else j + 1) = (if F.any charsetSel then j else j + 1)
    rw [charset_any_congr E F h]
  | otitle v => rfl
  | oupsert a b c d2 e => rfl
  | oreplace a b => rfl

theorem upsertTarget_congr (op : Op) (hg : GoodOp op) (E F : List Elem)
    (h : E.map skel = F.map skel) : upsertTarget op E = upsertTarget op F := by
  cases op with
  | oupsert tag attr key va val =>
    exact sel_findIdx_congr tag attr key (goodOp_attr_allowed hg) E F h
  | otitle v => rfl
  | ocharset v => rfl
  | oreplace a b => rfl

theorem trk_written_congr (l : List Op) (hb : Benign l) (E F : List Elem)
    (h : E.map skel = F.map skel) (j : Nat) :
    trk l E j = trk l F j ∧ (Written l E j ↔ Written l F j) := by
  induction l generalizing E F j with
  | nil => exact ⟨rfl, Iff.rfl⟩
  | cons op rest ih =>
    have hg := (hb op (by simp)).1
    have hu := (hb op (by simp)).2
    have hb2 : Benign rest := fun o ho => hb o (by simp [ho])
    have h2 := mapSkel_applyOpE op hg hu E F h
    have hsh := shiftIdx_congr op E F h j
    have htg := upsertTarget_congr op hg E F h
    refine ⟨?_, ?_⟩
    · show trk rest (applyOpE op E) (shiftIdx op E j) =
        trk rest (applyOpE op F) (shiftIdx op F j)
      rw [← hsh]
      exact (ih hb2 (applyOpE op E) (applyOpE op F) h2 (shiftIdx op E j)).1
    · show (upsertTarget op E = some j ∨ Written rest (applyOpE op E) (shiftIdx op E j)) ↔
        (upsertTarget op F = some j ∨ Written rest (applyOpE op F) (shiftIdx op F j))
      rw [htg, ← hsh]
      exact or_congr Iff.rfl
        (ih hb2 (applyOpE op E) (applyOpE op F) h2 (shiftIdx op E j)).2

/-
Claim theorems.
-/

/-- C6: for every metadata record and document, a reconcile call
preserves exactly (same order, same attributes) the head elements that
none of its derived write operations target — a field that is absent or
empty emits no operation, so elements previously set for it are
untouched and none is created — and when the title field is absent or
empty the document title is unchanged. -/
theorem C6_frame_untouched (p : SeoProps) (d : Doc) :
    (updateSeo p d).elems.filter (fun e => !touchedBy p e) =
      d.elems.filter (fun e => !touchedBy p e) ∧
    (isTruthy p.title = false → (updateSeo p d).title = d.title) := by
  have hval : ∀ (e : Elem) (v : String),
      (!touchedBy p (e.setAttr "content" v)) = (!touchedBy p e) ∧
      (!touchedBy p (e.setAttr "href" v)) = (!touchedBy p e) := by
    intro e v
    constructor
    · rw [touchedBy_setAttr p e _ v (Or.inl rfl)]
    · rw [touchedBy_setAttr p e _ v (Or.inr rfl)]
  have htouch : ∀ op ∈ opsOf p, ∀ e, opTouches op e = true →
      (!touchedBy p e) = false := by
    intro op hop e hte
    have ht : touchedBy p e = true := by
      unfold touchedBy
      rw [List.any_eq_true]
      exact ⟨op, hop, hte⟩
    simp [ht]
  constructor
  · rw [updateSeo_ops, execOps_elems]
    exact filter_execE (fun e => !touchedBy p e) (opsOf p) (opsOf_good p) hval htouch d.elems
  · intro ht
    rw [updateSeo_ops, execOps_title]
    exact execT_of_no_title (opsOf p) (fun v hv => opsOf_not_title p ht _ hv v rfl) d.title

/-- Witness for C6 at a concrete input: a record with no title leaves
the document title unchanged. -/
theorem C6_frame_untouched_witness :
    (updateSeo { description := some "x" } ⟨"T", []⟩).title = "T" :=
  (C6_frame_untouched { description := some "x" } ⟨"T", []⟩).2 (by decide)

/-- C3: for every starting head state satisfying the at-most-one
invariant for each selector key, the invariant is preserved by every
sequence of reconcile calls. -/
theorem C3_no_duplication (rs : List SeoProps) (d : Doc) (hd : SelInv d.elems) :
    SelInv ((rs.foldl (fun d p => updateSeo p d) d).elems) := by
  induction rs generalizing d with
  | nil => exact hd
  | cons p t ih =>
    rw [List.foldl_cons]
    exact ih (updateSeo p d) (selInv_updateSeo p d hd)

/-- Witness for C3 at a concrete input: one reconciliation from the
empty head. -/
theorem C3_no_duplication_witness :
    SelInv ((([{ title := some "A" }] : List SeoProps).foldl
      (fun d p => updateSeo p d) emptyDoc).elems) :=
  C3_no_duplication [{ title := some "A" }] emptyDoc
    ⟨fun a v ha => by simp [emptyDoc], by simp [emptyDoc]⟩

/-- C7: keyword formatting — an array of keywords is joined with a
comma and a single space (["a","b","c"] yields "a, b, c" and is stored
with that content), a single string is used verbatim, and an absent
keywords field produces the empty result and (with no custom tags
supplying one) creates no keywords meta element. -/
theorem C7_keyword_formatting (p : SeoProps) (d : Doc) (l : List String) (s0 : String) :
    formatKeywords (some (.arr l)) = String.intercalate ", " l ∧
    formatKeywords (some (.arr ["a", "b", "c"])) = "a, b, c" ∧
    formatKeywords (some (.str s0)) = s0 ∧
    formatKeywords none = "" ∧
    (updateSeo { keywords := some (.arr ["a", "b", "c"]) } emptyDoc).elems =
      [⟨"meta", [("name", "keywords"), ("content", "a, b, c")], ""⟩] ∧
    (p.keywords = none → p.customMeta = none →
      (updateSeo p d).elems.countP (selPred "meta" "name" "keywords")
        ≤ d.elems.countP (selPred "meta" "name" "keywords")) := by
  refine ⟨rfl, by decide, ?_, rfl, by decide, ?_⟩
  · show (if s0 = "" then "" else s0) = s0
    by_cases h : s0 = ""
    · rw [if_pos h, h]
    · rw [if_neg h]
  · intro hk hc
    rw [updateSeo_ops, execOps_elems]
    apply countP_execE_le _ _ (opsOf_good p)
    · intro e v
      constructor <;> (apply selPred_setAttr; decide)
    · intro op hop e he
      have hg := opsOf_good p op hop
      cases op with
      | otitle w => simp [opNew] at he
      | ocharset w =>
        simp [opNew] at he
        subst he
        exact selPred_charsetElem "meta" "name" "keywords" w (by decide)
      | oreplace id txt =>
        simp [opNew] at he
        subst he
        exact selPred_ldScript "meta" "name" "keywords" id txt (by decide) (by decide)
      | oupsert tag attr key va val =>
        simp [opNew] at he
        subst he
        apply selPred_newUpsertElem_other
        · rcases goodOp_upsert_facts hg with ⟨hva, -⟩
          rcases hva with rfl | rfl <;> decide
        · rintro ⟨h1, h2, h3⟩
          exact opsOf_no_kw p hk hc _ hop tag va val (by rw [← h2, ← h3])

/-- Witness for C7 at concrete inputs. -/
theorem C7_keyword_formatting_witness :
    formatKeywords (some (.str "a,b")) = "a,b" ∧
    (updateSeo {} emptyDoc).elems.countP (selPred "meta" "name" "keywords") ≤
      emptyDoc.elems.countP (selPred "meta" "name" "keywords") := by
  obtain ⟨-, -, h3, -, -, h6⟩ := C7_keyword_formatting {} emptyDoc [] "a,b"
  exact ⟨h3, h6 rfl rfl⟩

/-- C1 counterexample: for the record with title "A" and an Open-Graph
override record with title "B", the resulting og:title element holds
content "A", not the override record's "B": the claim as stated is
false on the code. -/
theorem C1_counterexample :
    ∃ e ∈ (updateSeo { title := some "A",
                       openGraph := some { title := some "B" } } emptyDoc).elems,
      selPred "meta" "property" "og:title" e = true ∧
      e.getAttr "content" ≠ some "B" := by decide

/-- C1 (amended): the flat namespace field (ogTitle/twitterTitle) wins,
but whenever the flat chain (explicit override field or else top-level
field) is truthy it overwrites the override record's same-named key;
hence for {title: "A", openGraph: {title: "B"}} the og:title content
is "A", and for {title: "A"} alone it is also "A". -/
theorem C1_precedence_amended (p : SeoProps) :
    (isTruthy p.ogTitle = true → (mkOgData p).title = p.ogTitle) ∧
    (isTruthy p.ogTitle = false → isTruthy p.title = true →
      (mkOgData p).title = p.title) ∧
    (isTruthy p.twitterTitle = false → isTruthy p.title = true →
      (mkTwitterData p).title = p.title) ∧
    (updateSeo { title := some "A",
                 openGraph := some { title := some "B" } } emptyDoc).elems.filter
        (selPred "meta" "property" "og:title") =
      [⟨"meta", [("property", "og:title"), ("content", "A")], ""⟩] ∧
    (updateSeo { title := some "A" } emptyDoc).elems.filter
        (selPred "meta" "property" "og:title") =
      [⟨"meta", [("property", "og:title"), ("content", "A")], ""⟩] := by
  refine ⟨?_, ?_, ?_, by decide, by decide⟩
  · intro h1
    rw [mkOgData_title, jsOr, if_pos h1]
    rw [if_pos h1]
  · intro h1 h2
    have hj : jsOr p.ogTitle p.title = p.title := by
      rw [jsOr, if_neg (by simp [h1])]
    rw [mkOgData_title, hj, if_pos h2]
  · intro h1 h2
    have hj : jsOr p.twitterTitle p.title = p.title := by
      rw [jsOr, if_neg (by simp [h1])]
    rw [mkTwitterData_title, hj, if_pos h2]

/-- Witness for C1 (amended) at a concrete record. -/
theorem C1_precedence_amended_witness :
    (mkOgData { title := some "A", ogTitle := some "O" }).title = some "O" ∧
    (mkOgData { title := some "A",
                openGraph := some { title := some "B" } }).title = some "A" := by
  obtain ⟨h1, -, -, -, -⟩ :=
    C1_precedence_amended { title := some "A", ogTitle := some "O" }
  obtain ⟨-, h2, -, -, -⟩ :=
    C1_precedence_amended
      { title := some "A", openGraph := some { title := some "B" } }
  exact ⟨h1 (by decide), h2 (by decide) (by decide)⟩

/-- C8 counterexample: a record supplying an Open-Graph image only via
the override record (openGraph.image = "X") and no explicit
twitter-image yields no twitter:image element at all, although the
og:image element is produced: the claimed fallback to \"the Open-Graph
image\" does not hold for the override record's image. -/
theorem C8_counterexample :
    (updateSeo { openGraph := some { image := some "X" } } emptyDoc).elems.filter
        (selPred "meta" "name" "twitter:image") = [] ∧
    (updateSeo { openGraph := some { image := some "X" } } emptyDoc).elems.filter
        (selPred "meta" "property" "og:image") ≠ [] := by decide

/-- C8 (amended): the twitter:image fallback draws only on the flat
og-image prop: when no explicit twitter-image is given and the flat
ogImage prop is truthy, the derived twitter image equals ogImage (and
the resulting twitter:image meta content equals it); the Open-Graph
override record's image key does not feed the fallback. -/
theorem C8_twitter_image_amended (p : SeoProps) :
    (isTruthy p.twitterImage = false → isTruthy p.ogImage = true →
      (mkTwitterData p).image = p.ogImage) ∧
    (updateSeo { ogImage := some "X" } emptyDoc).elems.filter
        (selPred "meta" "name" "twitter:image") =
      [⟨"meta", [("name", "twitter:image"), ("content", "X")], ""⟩] := by
  refine ⟨?_, by decide⟩
  intro h1 h2
  have hj : jsOr p.twitterImage p.ogImage = p.ogImage := by
    rw [jsOr, if_neg (by simp [h1])]
  rw [mkTwitterData_image, hj, if_pos h2]

/-- Witness for C8 (amended) at a concrete record. -/
theorem C8_twitter_image_amended_witness :
    (mkTwitterData { ogImage := some "X" }).image = some "X" :=
  (C8_twitter_image_amended { ogImage := some "X" }).1 (by decide) (by decide)

/-- C10: removeJsonLd removes the element bearing the fixed marker id
only when its type attribute is exactly application/ld+json — with a
different or missing type (or no such element) the document is entirely
unchanged — whereas injectJsonLd removes the first element carrying the
marker id regardless of its type before appending the fresh script, so
afterwards the only marker-id element is the new script. -/
theorem C10_removeJsonLd_type_guard (d : Doc) (e : Elem) (j : JsonLd) :
    (d.elems.find? (byId JSON_LD_ID) = some e →
      ¬e.getAttr "type" = some "application/ld+json" →
      removeJsonLd JSON_LD_ID d = d) ∧
    (d.elems.find? (byId JSON_LD_ID) = none → removeJsonLd JSON_LD_ID d = d) ∧
    (d.elems.find? (byId JSON_LD_ID) = some e →
      e.getAttr "type" = some "application/ld+json" →
      (removeJsonLd JSON_LD_ID d).elems = removeFirstBy (byId JSON_LD_ID) d.elems) ∧
    (d.elems.countP (byId JSON_LD_ID) ≤ 1 →
      (injectJsonLd j (some JSON_LD_ID) d).elems.filter (byId JSON_LD_ID) =
        [ldScript JSON_LD_ID (stringifyJson j)]) := by
  refine ⟨?_, ?_, ?_, ?_⟩
  · intro hf ht
    unfold removeJsonLd
    rw [hf]
    dsimp only
    rw [if_neg (by simpa using ht)]
  · intro hf
    unfold removeJsonLd
    rw [hf]
  · intro hf ht
    unfold removeJsonLd
    rw [hf]
    dsimp only
    rw [if_pos (by simpa using ht)]
  · intro hc
    rw [injectJsonLd_op]
    show (removeFirstBy (byId JSON_LD_ID) d.elems ++
      [ldScript JSON_LD_ID (stringifyJson j)]).filter (byId JSON_LD_ID) = _
    rw [List.filter_append]
    have h0 : (removeFirstBy (byId JSON_LD_ID) d.elems).countP (byId JSON_LD_ID) = 0 :=
      countP_removeFirstBy_eq_zero _ _ hc
    have h1 : (removeFirstBy (byId JSON_LD_ID) d.elems).filter (byId JSON_LD_ID) = [] := by
      rw [List.filter_eq_nil_iff]
      intro a ha
      have := List.countP_eq_zero.mp h0 a ha
      simp [this]
    rw [h1]
    simp [byId_ldScript]

/-- Witness for C10 at a concrete head: a non-script element bearing
the marker id but no ld+json type survives removeJsonLd, while
injectJsonLd replaces it. -/
theorem C10_removeJsonLd_type_guard_witness :
    removeJsonLd JSON_LD_ID ⟨"", [⟨"div", [("id", JSON_LD_ID)], ""⟩]⟩ =
      ⟨"", [⟨"div", [("id", JSON_LD_ID)], ""⟩]⟩ ∧
    (injectJsonLd "J" (some JSON_LD_ID)
        ⟨"", [⟨"div", [("id", JSON_LD_ID)], ""⟩]⟩).elems.filter (byId JSON_LD_ID) =
      [ldScript JSON_LD_ID "J"] := by
  obtain ⟨h1, -, -, h4⟩ :=
    C10_removeJsonLd_type_guard ⟨"", [⟨"div", [("id", JSON_LD_ID)], ""⟩]⟩
      ⟨"div", [("id", JSON_LD_ID)], ""⟩ "J"
  exact ⟨h1 (by decide) (by decide), h4 (by decide)⟩

/-- C9: charset custom-tag handling — a charset-addressed entry with
content creates the charset element as the first child of the head when
none exists, leaves an existing one completely untouched, only the
first of several charset entries takes effect, and across any sequence
of reconciliations at most one charset element exists (given at most
one initially). -/
theorem C9_charset (m m2 : CustomMeta) (d : Doc) (rs : List SeoProps)
    (hm : m.content ≠ "" ∧ isTruthy m.name = false ∧ isTruthy m.property = false ∧
          isTruthy m.httpEquiv = false ∧ isTruthy m.charset = true) :
    (d.elems.any charsetSel = false →
      setCustomMetaTags [m] d =
        { d with elems := charsetElem (m.charset.getD "") :: d.elems }) ∧
    (d.elems.any charsetSel = true → setCustomMetaTags [m] d = d) ∧
    (d.elems.any charsetSel = false →
      (m2.content ≠ "" ∧ isTruthy m2.name = false ∧ isTruthy m2.property = false ∧
       isTruthy m2.httpEquiv = false ∧ isTruthy m2.charset = true) →
      setCustomMetaTags [m, m2] d =
        { d with elems := charsetElem (m.charset.getD "") :: d.elems }) ∧
    (d.elems.countP charsetSel ≤ 1 →
      (rs.foldl (fun d p => updateSeo p d) d).elems.countP charsetSel ≤ 1) := by
  obtain ⟨hc, hn, hp, hh, hch⟩ := hm
  have hstep : ∀ d2 : Doc, d2.elems.any charsetSel = false →
      customStep d2 m = { d2 with elems := charsetElem (m.charset.getD "") :: d2.elems } := by
    intro d2 ha
    unfold customStep
    rw [if_neg hc, if_neg (by simp [hn]), if_neg (by simp [hp]), if_neg (by simp [hh]),
      if_pos hch, if_neg (by simp [ha])]
    rfl
  have hskip : ∀ (d2 : Doc) (m3 : CustomMeta), d2.elems.any charsetSel = true →
      m3.content ≠ "" → isTruthy m3.name = false → isTruthy m3.property = false →
      isTruthy m3.httpEquiv = false → isTruthy m3.charset = true →
      customStep d2 m3 = d2 := by
    intro d2 m3 ha hc3 hn3 hp3 hh3 hch3
    unfold customStep
    rw [if_neg hc3, if_neg (by simp [hn3]), if_neg (by simp [hp3]), if_neg (by simp [hh3]),
      if_pos hch3, if_pos ha]
  refine ⟨?_, ?_, ?_, countP_charset_le_one_foldl rs d⟩
  · intro ha
    show customStep d m = _
    exact hstep d ha
  · intro ha
    show customStep d m = d
    exact hskip d m ha hc hn hp hh hch
  · intro ha hm2
    obtain ⟨hc2, hn2, hp2, hh2, hch2⟩ := hm2
    show customStep (customStep d m) m2 = _
    rw [hstep d ha]
    apply hskip _ m2 _ hc2 hn2 hp2 hh2 hch2
    simp [List.any_cons, charsetSel_charsetElem]

/-- Witness for C9 at concrete inputs. -/
theorem C9_charset_witness :
    setCustomMetaTags [⟨none, none, "x", none, some "utf-8"⟩] emptyDoc =
      ⟨"", [charsetElem "utf-8"]⟩ ∧
    setCustomMetaTags [⟨none, none, "x", none, some "utf-8"⟩,
        ⟨none, none, "y", none, some "latin1"⟩] emptyDoc =
      ⟨"", [charsetElem "utf-8"]⟩ := by
  obtain ⟨h1, -, h3, -⟩ :=
    C9_charset ⟨none, none, "x", none, some "utf-8"⟩
      ⟨none, none, "y", none, some "latin1"⟩ emptyDoc []
      ⟨by decide, by decide, by decide, by decide, by decide⟩
  refine ⟨h1 (by decide), h3 (by decide) ⟨by decide, by decide, by decide, by decide, by decide⟩⟩

/-- C5 counterexample: on a head holding two canonical links, clear()
removes only the first (querySelector returns one element), so a
canonical link is still present afterwards — the claim, quantified over
every head state, fails. -/
theorem C5_counterexample :
    ∃ e ∈ (clearSeo ⟨"", [⟨"link", [("rel", "canonical"), ("href", "u1")], ""⟩,
                          ⟨"link", [("rel", "canonical"), ("href", "u2")], ""⟩]⟩).elems,
      selPred "link" "rel" "canonical" e = true := by decide

/-- C5 (amended): on every head state carrying at most one canonical
link and at most one element with the fixed marker id, clear() removes
exactly the canonical link (if any) and the marker-id element whose
type attribute is application/ld+json (if any), leaving the title and
every other element unchanged. -/
theorem C5_clear_scope_amended (d : Doc)
    (hc : d.elems.countP (selPred "link" "rel" "canonical") ≤ 1)
    (hm : d.elems.countP (byId JSON_LD_ID) ≤ 1) :
    (clearSeo d).title = d.title ∧
    (clearSeo d).elems = d.elems.filter
      (fun e => !(selPred "link" "rel" "canonical" e ||
        (byId JSON_LD_ID e && e.getAttr "type" == some "application/ld+json"))) := by
  have hF : (removeCanonical d).elems =
      d.elems.filter (fun e => !selPred "link" "rel" "canonical" e) := by
    show removeFirstBy (selPred "link" "rel" "canonical") d.elems = _
    exact removeFirstBy_eq_filter_of_le_one _ _ hc
  have hT : (removeCanonical d).title = d.title := rfl
  have hmF : (removeCanonical d).elems.countP (byId JSON_LD_ID) ≤ 1 := by
    rw [hF]
    exact Nat.le_trans (List.Sublist.countP_le _ (List.filter_sublist d.elems)) hm
  have hsplit : d.elems.filter
      (fun e => !(selPred "link" "rel" "canonical" e ||
        (byId JSON_LD_ID e && e.getAttr "type" == some "application/ld+json"))) =
      (removeCanonical d).elems.filter
        (fun e => !(byId JSON_LD_ID e && e.getAttr "type" == some "application/ld+json")) := by
    rw [hF, List.filter_filter]
    apply List.filter_congr
    intro x hx
    cases hcx : selPred "link" "rel" "canonical" x <;>
      cases hlx : (byId JSON_LD_ID x && x.getAttr "type" == some "application/ld+json") <;>
        simp [hcx, hlx]
  constructor
  · show (removeJsonLd JSON_LD_ID (removeCanonical d)).title = d.title
    rw [removeJsonLd_title, hT]
  · show (removeJsonLd JSON_LD_ID (removeCanonical d)).elems = _
    rw [hsplit]
    set F := (removeCanonical d).elems with hFdef
    unfold removeJsonLd
    cases hfind : F.find? (byId JSON_LD_ID) with
    | none =>
      dsimp only
      refine (List.filter_eq_self.mpr ?_).symm
      intro a ha
      have hba : byId JSON_LD_ID a = false := by
        simpa using List.find?_eq_none.mp hfind a ha
      simp [hba]
    | some e =>
      dsimp only
      by_cases ht : (e.getAttr "type" == some "application/ld+json") = true
      · rw [if_pos ht]
        show removeFirstBy (byId JSON_LD_ID) F = _
        rw [removeFirstBy_eq_filter_of_le_one _ _ hmF]
        apply List.filter_congr
        intro x hx
        by_cases hbx : byId JSON_LD_ID x = true
        · have hxe : x = e := mem_eq_of_countP_le_one _ _ hmF e hfind x hx hbx
          subst hxe
          simp [hbx, ht]
        · rw [Bool.not_eq_true] at hbx
          simp [hbx]
      · rw [if_neg ht]
        refine (List.filter_eq_self.mpr ?_).symm
        intro a ha
        by_cases hba : byId JSON_LD_ID a = true
        · have hae : a = e := mem_eq_of_countP_le_one _ _ hmF e hfind a ha hba
          subst hae
          rw [Bool.not_eq_true] at ht
          simp [hba, ht]
        · rw [Bool.not_eq_true] at hba
          simp [hba]

/-- Witness for C5 (amended) at a concrete head: clear removes the
canonical link and the owned script but keeps a description meta. -/
theorem C5_clear_scope_amended_witness :
    (clearSeo ⟨"T", [⟨"meta", [("name", "description"), ("content", "x")], ""⟩,
                     ⟨"link", [("rel", "canonical"), ("href", "u")], ""⟩,
                     ldScript JSON_LD_ID "J"]⟩).title = "T" ∧
    (clearSeo ⟨"T", [⟨"meta", [("name", "description"), ("content", "x")], ""⟩,
                     ⟨"link", [("rel", "canonical"), ("href", "u")], ""⟩,
                     ldScript JSON_LD_ID "J"]⟩).elems =
      [⟨"meta", [("name", "description"), ("content", "x")], ""⟩] := by
  obtain ⟨h1, h2⟩ := C5_clear_scope_amended
    ⟨"T", [⟨"meta", [("name", "description"), ("content", "x")], ""⟩,
           ⟨"link", [("rel", "canonical"), ("href", "u")], ""⟩,
           ldScript JSON_LD_ID "J"]⟩ (by decide) (by decide)
  refine ⟨h1, ?_⟩
  rw [h2]
  decide

/-- C4: starting from a head with at most one marker-id element, two
successive reconciliations supplying payloads A then B leave exactly
one marker-id element — the structured-data script containing the
serialization of B — and a reconciliation with an absent payload
touches no script element. -/
theorem C4_jsonld_replace (p1 p2 p3 : SeoProps) (d d3 : Doc) (A B : JsonLd)
    (h1 : p1.jsonLd = some A) (h2 : p2.jsonLd = some B)
    (hm : d.elems.countP (byId JSON_LD_ID) ≤ 1) :
    (updateSeo p2 (updateSeo p1 d)).elems.filter (byId JSON_LD_ID) =
      [ldScript JSON_LD_ID (stringifyJson B)] ∧
    (p3.jsonLd = none →
      (updateSeo p3 d3).elems.filter (fun e => e.tag == "script") =
        d3.elems.filter (fun e => e.tag == "script")) := by
  constructor
  · have step1 := updateSeo_jsonld_some p1 A d h1 hm
    exact (updateSeo_jsonld_some p2 B (updateSeo p1 d) h2 step1.2).1
  · intro h3
    rw [updateSeo_ops, execOps_elems]
    apply filter_execE
    · exact opsOf_good p3
    · intro e v
      constructor <;> rfl
    · intro op hop e hte
      have hmem : op ∈ opsMain p3 := by
        rw [opsOf, List.mem_append] at hop
        rcases hop with hop | hop
        · exact hop
        · unfold jsonLdOps at hop
          rw [h3] at hop
          exact absurd hop (List.not_mem_nil op)
      obtain ⟨hg, hu⟩ := opsMain_good p3 op hmem
      cases op with
      | otitle v => simp [opTouches] at hte
      | oupsert tag attr key va val =>
        have htag : e.tag = tag := by
          have := (Bool.and_eq_true _ _).mp hte
          simpa using this.1
        rw [htag]
        rcases hg with ⟨rfl, -, -⟩ | ⟨rfl, -, -⟩ <;> decide
      | ocharset v =>
        have htag : e.tag = "meta" := by
          have := (Bool.and_eq_true _ _).mp hte
          simpa using this.1
        rw [htag]
        decide
      | oreplace id txt => exact absurd hu (by simp [UpOp])

/-- Witness for C4 at concrete inputs: two reconciliations with
payloads on the empty head, and a payload-free one. -/
theorem C4_jsonld_replace_witness :
    (updateSeo { jsonLd := some "B2" } (updateSeo { jsonLd := some "A1" }
        emptyDoc)).elems.filter (byId JSON_LD_ID) = [ldScript JSON_LD_ID "B2"] ∧
    (updateSeo { title := some "T" } emptyDoc).elems.filter
        (fun e => e.tag == "script") =
      emptyDoc.elems.filter (fun e => e.tag == "script") := by
  obtain ⟨h1, h2⟩ := C4_jsonld_replace { jsonLd := some "A1" } { jsonLd := some "B2" }
    { title := some "T" } emptyDoc emptyDoc "A1" "B2" rfl rfl (by decide)
  exact ⟨h1, h2 rfl⟩

end ClientSeo
